import Mathlib

/-!
# Desk calculator (`SectionII/Chapter10/desk_calculator.cpp`)

A shallow embedding of the recursive-descent evaluator `prim` / `term` / `expr`
and of the pieces of global state they touch (the token stream `ts` and the
symbol table `table`).

* `double` is modelled by exact rational arithmetic (`Rat`). A quotient by zero,
  which is an infinity or a NaN for `double`, is `0` in `Rat`; no statement
  below relies on the value of such a quotient, and the one place where the
  code forms one is shown as the quotient `1 / 0` together with its divisor.
* The character source behind `Token_stream` is modelled by the list of tokens
  it still has to deliver; once the list is used up, `get` delivers the end
  token for ever.
* `error` is not defined in the source. Following the specification, a call of
  `error` makes the evaluation fail with the message, and the failure is passed
  on by every enclosing call; a failure records the globals at that point.
* The three procedures are mutually recursive; they are defined by structural
  recursion on a fuel argument, and `Result.timeout` is returned only when the
  fuel runs out. Results are stated for every fuel above an explicit bound
  (`fuel_add`: more fuel never changes a result other than `timeout`).
-/

namespace DeskCalculator

/-- Token kinds of `enum class Kind` (`end_` stands for the enumerator `end`). -/
inductive Kind where
  | name | number | end_
  | plus | minus | mul | div | print | assign | lp | rp
  deriving DecidableEq, Repr

/-- The `struct Token`: a kind, and the payload of a name or of a number. -/
structure Token where
  kind : Kind
  string_value : String
  number_value : Rat
  deriving DecidableEq, Repr

/-- The token `{Kind::end}`: remaining members are value-initialised. -/
def Token.eof : Token := ⟨Kind.end_, "", 0⟩

/-- A number token carrying `v`. -/
def Token.num (v : Rat) : Token := ⟨Kind.number, "", v⟩

/-- A name token carrying the identifier `x`. -/
def Token.ident (x : String) : Token := ⟨Kind.name, x, 0⟩

/-- An operator token of kind `k` (no payload). -/
def Token.op (k : Kind) : Token := ⟨k, "", 0⟩

/-- The class `Token_stream`: `ip` is the input still to be read, seen as the
tokens it will deliver, and `ct` is the current token. -/
structure Token_stream where
  ip : List Token
  ct : Token
  deriving DecidableEq, Repr

/-- Modelled from the spec: `Token_stream::get` is declared in the source but
its body is missing. It reads the next token and makes it the current one; at
the end of the input it produces the end token, and keeps doing so. -/
def Token_stream.get (ts : Token_stream) : Token_stream :=
  match ts.ip with
  | [] => { ip := [], ct := Token.eof }
  | t :: rest => { ip := rest, ct := t }

/-- Modelled from the spec: `Token_stream::current` is declared in the source
but its body is missing. It is the most recently read token. -/
def Token_stream.current (ts : Token_stream) : Token := ts.ct

/-- Modelled from the spec: the global `table` is used by `prim` but its
declaration is missing from the source; it is a map from names to numbers,
kept here as an association list (first match wins). -/
abbrev Table := List (String × Rat)

/-- Value stored under `key`, if there is an entry. -/
def Table.find (t : Table) (key : String) : Option Rat :=
  match t with
  | [] => none
  | (k, v) :: rest => if k = key then some v else Table.find rest key

/-- The table after `table[key]`: an absent key gets a fresh entry `0`. -/
def Table.index (t : Table) (key : String) : Table :=
  match Table.find t key with
  | some _ => t
  | none => t ++ [(key, 0)]

/-- Read through the reference obtained from `table[key]`. -/
def Table.read (t : Table) (key : String) : Rat :=
  (Table.find t key).getD 0

/-- Write through the reference obtained from `table[key]`: the entry of `key`
takes the value `v`, every other entry is left alone. -/
def Table.write (t : Table) (key : String) (v : Rat) : Table :=
  match t with
  | [] => []
  | (k, u) :: rest =>
      if k = key then (k, v) :: rest else (k, u) :: Table.write rest key v

/-- The globals the evaluator works on: the token stream `ts` and `table`. -/
structure State where
  ts : Token_stream
  table : Table
  deriving DecidableEq, Repr

/-- The statement `ts.get()` executed on the global stream. -/
def State.get (s : State) : State := { s with ts := s.ts.get }

/-- The statement `if(get) ts.get();`. -/
def State.advance (get : Bool) (s : State) : State :=
  if get then s.get else s

/-- The lookup `table[key]`, which creates the entry of an absent key. -/
def State.index (s : State) (key : String) : State :=
  { s with table := Table.index s.table key }

/-- The assignment `v = e` through the reference `v` to the entry of `key`. -/
def State.assign (s : State) (key : String) (e : Rat) : State :=
  { s with table := Table.write s.table key e }

/-- Kind of the current token, `ts.current().kind`. -/
def State.kind (s : State) : Kind := s.ts.current.kind

/-- Outcome of a call: a returned value, a reported error, or no more fuel.
Both proper outcomes carry the globals as the call left them. -/
inductive Result where
  | ok (v : Rat) (s : State)
  | fail (msg : String) (s : State)
  | timeout
  deriving DecidableEq, Repr

/-- Modelled from the spec: `error` is called by the source but its definition
is missing. Per the spec the call fails with the given message; the failure
ends the enclosing evaluation. -/
def error (msg : String) (s : State) : Result := Result.fail msg s

/-- Sequencing: continue with `k` after a call that returned a value. -/
def Result.bind (r : Result) (k : Rat → State → Result) : Result :=
  match r with
  | Result.ok v s => k v s
  | Result.fail msg s => Result.fail msg s
  | Result.timeout => Result.timeout

mutual

/-- The function `prim(bool get)`: handle primaries. -/
def prim : Nat → Bool → State → Result
  | 0, _, _ => Result.timeout
  | fuel + 1, get, s0 =>
    let s := State.advance get s0
    match s.kind with
    | Kind.number =>
        let v := s.ts.current.number_value
        Result.ok v s.get
    | Kind.name =>
        let key := s.ts.current.string_value
        let s1 := (s.index key).get
        if s1.kind = Kind.assign then
          (expr fuel true s1).bind fun e s2 => Result.ok e (s2.assign key e)
        else
          Result.ok (Table.read s1.table key) s1
    | Kind.minus =>
        (prim fuel true s).bind fun v s1 => Result.ok (-v) s1
    | Kind.lp =>
        (expr fuel true s).bind fun e s1 =>
          if s1.kind ≠ Kind.rp then error "')' expected" s1
          else Result.ok e s1.get
    | _ => error "primary expected" s

/-- The function `term(bool get)`: multiply and divide. -/
def term : Nat → Bool → State → Result
  | 0, _, _ => Result.timeout
  | fuel + 1, get, s0 =>
    (prim fuel get s0).bind fun left s => termLoop fuel left s

/-- The `for(;;)` loop of `term`, entered with the accumulator `left`. -/
def termLoop : Nat → Rat → State → Result
  | 0, _, _ => Result.timeout
  | fuel + 1, left, s =>
    match s.kind with
    | Kind.mul =>
        (term fuel true s).bind fun r s1 => termLoop fuel (left * r) s1
    | Kind.div =>
        (prim fuel true s).bind fun d s1 =>
          if d ≠ 0 then
            (term fuel true s1).bind fun r s2 => termLoop fuel (left / r) s2
          else error "divide by 0" s1
    | _ => Result.ok left s

/-- The function `expr(bool get)`: add and subtract. -/
def expr : Nat → Bool → State → Result
  | 0, _, _ => Result.timeout
  | fuel + 1, get, s0 =>
    (term fuel get s0).bind fun left s => exprLoop fuel left s

/-- The `for(;;)` loop of `expr`, entered with the accumulator `left`. -/
def exprLoop : Nat → Rat → State → Result
  | 0, _, _ => Result.timeout
  | fuel + 1, left, s =>
    match s.kind with
    | Kind.plus =>
        (term fuel true s).bind fun r s1 => exprLoop fuel (left + r) s1
    | Kind.minus =>
        (term fuel true s).bind fun r s1 => exprLoop fuel (left - r) s1
    | _ => Result.ok left s

end

/-- A state whose stream has `toks` still to read and `ct` as current token. -/
def mkState (toks : List Token) (ct : Token) (t : Table) : State :=
  { ts := { ip := toks, ct := ct }, table := t }


/-! ## Shapes of input used to state the claims -/

/-- The tokens `op1 n2 op2 n3 ...` of a chain, after its first operand. -/
def opTokens : List (Kind × Rat) → List Token
  | [] => []
  | (k, v) :: ops => Token.op k :: Token.num v :: opTokens ops

/-- Left fold of a chain of `+` and `-` starting from `left`: every operator
other than `+` is read as `-`. -/
def foldAddSub (left : Rat) : List (Kind × Rat) → Rat
  | [] => left
  | (k, v) :: ops => foldAddSub (if k = Kind.plus then left + v else left - v) ops

/-- Kind of the token the stream delivers next when `rest` is still to be
read: its first token, or the end token when nothing is left. -/
def nextKind (rest : List Token) : Kind :=
  match rest with
  | [] => Kind.end_
  | t :: _ => t.kind

/-- Kinds on which `prim` has a case of its own: a number, a name, a unary
minus or an opening parenthesis; every other kind falls to `default`. -/
def Kind.startsPrimary : Kind → Bool
  | Kind.number | Kind.name | Kind.minus | Kind.lp => true
  | _ => false

/-- The tokens of `toks` contain no `=`. -/
def noAssign (toks : List Token) : Prop :=
  ∀ tok ∈ toks, tok.kind ≠ Kind.assign

/-- From table `t` to table `t'` every entry present in `t` has kept its value,
and every name that has an entry only in `t'` has the value `0` there and is
the identifier of a name token of `toks`. -/
def Table.grown (toks : List Token) (t t' : Table) : Prop :=
  ∀ y, Table.find t' y = Table.find t y ∨
    (Table.find t y = none ∧ Table.find t' y = some 0 ∧
      ∃ tok ∈ toks, tok.kind = Kind.name ∧ tok.string_value = y)

/-- From the globals `s` to the globals `s'` the stream has delivered the
tokens `read` and nothing else; a name that is now the current token was the
current token of `s` or is one of `read`; and the table has grown only by
names among these tokens. -/
def State.Reads (s s' : State) : Prop :=
  ∃ read, s.ts.ip = read ++ s'.ts.ip ∧
    (s'.ts.ct.kind = Kind.name → s'.ts.ct ∈ s.ts.ct :: read) ∧
    Table.grown (s.ts.ct :: read) s.table s'.table

/-- The property `P` holds of the globals a call left, whether it returned a
value or failed; nothing is asked of a call that ran out of fuel. -/
def Result.Leaves (P : State → Prop) (r : Result) : Prop :=
  match r with
  | Result.ok _ s => P s
  | Result.fail _ s => P s
  | Result.timeout => True

/-- Size of what is left to evaluate: the tokens still to be read, plus one
when the current token is not the end token. -/
def State.measure (s : State) : Nat :=
  s.ts.ip.length + (if s.kind = Kind.end_ then 0 else 1)

/-- The call did not run out of fuel, and if it returned a value it left
globals of measure at most `m`. -/
def Result.Within (m : Nat) (r : Result) : Prop :=
  match r with
  | Result.ok _ s => s.measure ≤ m
  | Result.fail _ _ => True
  | Result.timeout => False

/-! ## Ownership of the input source -/

/-- How a source is handed to a `Token_stream`, the source being known by its
identity: by reference (`istream&`, borrowed) or by pointer (`istream*`,
owned). -/
inductive Source where
  | ref (s : Nat)
  | ptr (p : Nat)
  deriving DecidableEq, Repr

/-- Identity of the source handed over. -/
def Source.id : Source → Nat
  | Source.ref s => s
  | Source.ptr p => p

/-- The resource view of the class `Token_stream`: the members `ip` (the source
pointed to) and `owns`, together with the sources deleted so far. -/
structure Token_stream_res where
  ip : Nat
  owns : Bool
  released : List Nat
  deriving DecidableEq, Repr

/-- The member `close()`: `if(owns) delete ip;`. -/
def Token_stream_res.close (o : Token_stream_res) : Token_stream_res :=
  if o.owns then { o with released := o.released ++ [o.ip] } else o

/-- The two constructors, `Token_stream(istream& s)` and `Token_stream(istream* p)`. -/
def Token_stream_res.construct : Source → Token_stream_res
  | Source.ref s => { ip := s, owns := false, released := [] }
  | Source.ptr p => { ip := p, owns := true, released := [] }

/-- The two overloads of `set_input`: `close()`, then re-target `ip` and set `owns`. -/
def Token_stream_res.set_input (o : Token_stream_res) : Source → Token_stream_res
  | Source.ref s => { o.close with ip := s, owns := false }
  | Source.ptr p => { o.close with ip := p, owns := true }

/-- The destructor `~Token_stream()`, which calls `close()`: the sources
released by the end of the life of the stream. -/
def Token_stream_res.destroy (o : Token_stream_res) : List Nat :=
  o.close.released

/-- Sources released over the life of a stream constructed from `a`,
re-targeted by the calls `set_input` of `calls` in turn, and then destroyed. -/
def lifetime (a : Source) (calls : List Source) : List Nat :=
  (calls.foldl Token_stream_res.set_input (Token_stream_res.construct a)).destroy

/-- The sources of a list that were handed over by pointer, in order. -/
def owned : List Source → List Nat
  | [] => []
  | Source.ref _ :: rest => owned rest
  | Source.ptr p :: rest => p :: owned rest

/-! ## Divisions carried out by `term`, and the textbook `term` -/

/-- Divisors of the steps `left /= ...` that the loop of `term` carries out
itself, in order, when entered with the accumulator `left`; it follows
`termLoop` branch by branch. -/
def termLoopDivisors : Nat → Rat → State → List Rat
  | 0, _, _ => []
  | fuel + 1, left, s =>
    match s.kind with
    | Kind.mul =>
        match term fuel true s with
        | Result.ok r s1 => termLoopDivisors fuel (left * r) s1
        | _ => []
    | Kind.div =>
        match prim fuel true s with
        | Result.ok d s1 =>
            if d ≠ 0 then
              match term fuel true s1 with
              | Result.ok r s2 => r :: termLoopDivisors fuel (left / r) s2
              | _ => []
            else []
        | _ => []
    | _ => []

/-- Divisors of the steps `left /= ...` carried out by the loop of a call
`term(get)`. -/
def termDivisors : Nat → Bool → State → List Rat
  | 0, _, _ => []
  | fuel + 1, get, s0 =>
    match prim fuel get s0 with
    | Result.ok left s => termLoopDivisors fuel left s
    | _ => []

/-- The loop of `term` as the specification words it (section 4.2), to be
compared with `termLoop`: the right operand of `*` and of `/` is one call of
`primary(advance=true)`, and the operand tested against zero is the one divided
by. Primaries are those of the source, `prim`. -/
def term_spec_loop : Nat → Rat → State → Result
  | 0, _, _ => Result.timeout
  | fuel + 1, left, s =>
    match s.kind with
    | Kind.mul =>
        (prim fuel true s).bind fun r s1 => term_spec_loop fuel (left * r) s1
    | Kind.div =>
        (prim fuel true s).bind fun d s1 =>
          if d ≠ 0 then term_spec_loop fuel (left / d) s1
          else error "divide by 0" s1
    | _ => Result.ok left s

/-- The procedure `term` as the specification words it (section 4.2):
`left = primary(advance)`, then the loop `term_spec_loop`. -/
def term_spec : Nat → Bool → State → Result
  | 0, _, _ => Result.timeout
  | fuel + 1, get, s0 =>
    (prim fuel get s0).bind fun left s => term_spec_loop fuel left s

/-- The tokens `* n2 * n3 ...` of a multiplication-only chain, after its first
operand. -/
def mulChain (ns : List Rat) : List Token :=
  opTokens (ns.map fun v => (Kind.mul, v))

/-- The product `n1 * (n2 * (... * nk))`, grouped to the right. -/
def prodRight (n1 : Rat) : List Rat → Rat
  | [] => n1
  | v :: vs => n1 * prodRight v vs

/-- The product `((left * n2) * ...) * nk`, grouped to the left. -/
def prodLeft (left : Rat) : List Rat → Rat
  | [] => left
  | v :: vs => prodLeft (left * v) vs

/-! ## Unfolding lemmas and fuel monotonicity -/

theorem prim_succ (fuel : Nat) (get : Bool) (s0 : State) :
    prim (fuel + 1) get s0 =
      match (State.advance get s0).kind with
      | Kind.number =>
          Result.ok (State.advance get s0).ts.current.number_value (State.advance get s0).get
      | Kind.name =>
          if (((State.advance get s0).index
              (State.advance get s0).ts.current.string_value).get).kind = Kind.assign then
            (expr fuel true (((State.advance get s0).index
              (State.advance get s0).ts.current.string_value).get)).bind fun e s2 =>
                Result.ok e (s2.assign (State.advance get s0).ts.current.string_value e)
          else
            Result.ok (Table.read (((State.advance get s0).index
              (State.advance get s0).ts.current.string_value).get).table
                (State.advance get s0).ts.current.string_value)
              (((State.advance get s0).index
                (State.advance get s0).ts.current.string_value).get)
      | Kind.minus =>
          (prim fuel true (State.advance get s0)).bind fun v s1 => Result.ok (-v) s1
      | Kind.lp =>
          (expr fuel true (State.advance get s0)).bind fun e s1 =>
            if s1.kind ≠ Kind.rp then error "')' expected" s1
            else Result.ok e s1.get
      | _ => error "primary expected" (State.advance get s0) := by
  rw [prim]

theorem term_succ (fuel : Nat) (get : Bool) (s0 : State) :
    term (fuel + 1) get s0 = (prim fuel get s0).bind fun left s => termLoop fuel left s := by
  rw [term]

theorem termLoop_succ (fuel : Nat) (left : Rat) (s : State) :
    termLoop (fuel + 1) left s =
      match s.kind with
      | Kind.mul => (term fuel true s).bind fun r s1 => termLoop fuel (left * r) s1
      | Kind.div =>
          (prim fuel true s).bind fun d s1 =>
            if d ≠ 0 then (term fuel true s1).bind fun r s2 => termLoop fuel (left / r) s2
            else error "divide by 0" s1
      | _ => Result.ok left s := by
  rw [termLoop]

theorem expr_succ (fuel : Nat) (get : Bool) (s0 : State) :
    expr (fuel + 1) get s0 = (term fuel get s0).bind fun left s => exprLoop fuel left s := by
  rw [expr]

theorem exprLoop_succ (fuel : Nat) (left : Rat) (s : State) :
    exprLoop (fuel + 1) left s =
      match s.kind with
      | Kind.plus => (term fuel true s).bind fun r s1 => exprLoop fuel (left + r) s1
      | Kind.minus => (term fuel true s).bind fun r s1 => exprLoop fuel (left - r) s1
      | _ => Result.ok left s := by
  rw [exprLoop]

theorem Result.bind_mono {r r' : Result} {k k' : Rat → State → Result}
    (hr : r ≠ Result.timeout → r' = r)
    (hk : ∀ v s, k v s ≠ Result.timeout → k' v s = k v s)
    (h : r.bind k ≠ Result.timeout) : r'.bind k' = r.bind k := by
  cases r with
  | ok v s =>
    rw [hr (by simp)]
    exact hk v s h
  | fail msg s =>
    rw [hr (by simp)]
    rfl
  | timeout => exact absurd rfl h

theorem fuel_succ (f : Nat) :
    (∀ get s, prim f get s ≠ Result.timeout → prim (f + 1) get s = prim f get s) ∧
    (∀ get s, term f get s ≠ Result.timeout → term (f + 1) get s = term f get s) ∧
    (∀ left s, termLoop f left s ≠ Result.timeout →
      termLoop (f + 1) left s = termLoop f left s) ∧
    (∀ get s, expr f get s ≠ Result.timeout → expr (f + 1) get s = expr f get s) ∧
    (∀ left s, exprLoop f left s ≠ Result.timeout →
      exprLoop (f + 1) left s = exprLoop f left s) := by
  induction f with
  | zero =>
    refine ⟨?_, ?_, ?_, ?_, ?_⟩ <;> intro a s h
    · exact absurd (by rw [prim]) h
    · exact absurd (by rw [term]) h
    · exact absurd (by rw [termLoop]) h
    · exact absurd (by rw [expr]) h
    · exact absurd (by rw [exprLoop]) h
  | succ n ih =>
    obtain ⟨ihp, iht, ihtl, ihe, ihel⟩ := ih
    refine ⟨?_, ?_, ?_, ?_, ?_⟩
    · intro get s h
      rw [prim_succ n get s] at h
      rw [prim_succ (n + 1) get s, prim_succ n get s]
      cases hk : (State.advance get s).kind <;> simp only [hk] at h ⊢
      · split
        · rename_i ha
          rw [if_pos ha] at h
          exact Result.bind_mono (ihe _ _) (fun _ _ _ => rfl) h
        · rfl
      · exact Result.bind_mono (ihp _ _) (fun _ _ _ => rfl) h
      · exact Result.bind_mono (ihe _ _) (fun _ _ _ => rfl) h
    · intro get s h
      rw [term_succ n get s] at h
      rw [term_succ (n + 1) get s, term_succ n get s]
      exact Result.bind_mono (ihp _ _) (fun _ _ => ihtl _ _) h
    · intro left s h
      rw [termLoop_succ n left s] at h
      rw [termLoop_succ (n + 1) left s, termLoop_succ n left s]
      cases hk : s.kind <;> simp only [hk] at h ⊢
      · exact Result.bind_mono (iht _ _) (fun _ _ => ihtl _ _) h
      · refine Result.bind_mono (ihp _ _) (fun d s1 hd => ?_) h
        by_cases hz : d ≠ 0
        · simp only [if_pos hz] at hd ⊢
          exact Result.bind_mono (iht _ _) (fun _ _ => ihtl _ _) hd
        · simp only [if_neg hz]
    · intro get s h
      rw [expr_succ n get s] at h
      rw [expr_succ (n + 1) get s, expr_succ n get s]
      exact Result.bind_mono (iht _ _) (fun _ _ => ihel _ _) h
    · intro left s h
      rw [exprLoop_succ n left s] at h
      rw [exprLoop_succ (n + 1) left s, exprLoop_succ n left s]
      cases hk : s.kind <;> simp only [hk] at h ⊢
      · exact Result.bind_mono (iht _ _) (fun _ _ => ihel _ _) h
      · exact Result.bind_mono (iht _ _) (fun _ _ => ihel _ _) h

theorem fuel_add (f n : Nat) :
    (∀ get s, prim f get s ≠ Result.timeout → prim (f + n) get s = prim f get s) ∧
    (∀ get s, term f get s ≠ Result.timeout → term (f + n) get s = term f get s) ∧
    (∀ left s, termLoop f left s ≠ Result.timeout →
      termLoop (f + n) left s = termLoop f left s) ∧
    (∀ get s, expr f get s ≠ Result.timeout → expr (f + n) get s = expr f get s) ∧
    (∀ left s, exprLoop f left s ≠ Result.timeout →
      exprLoop (f + n) left s = exprLoop f left s) := by
  induction n with
  | zero => refine ⟨?_, ?_, ?_, ?_, ?_⟩ <;> intro a s _ <;> rfl
  | succ m ih =>
    obtain ⟨hp, ht, htl, he, hel⟩ := ih
    obtain ⟨sp, st, stl, se, sel⟩ := fuel_succ (f + m)
    refine ⟨?_, ?_, ?_, ?_, ?_⟩
    · intro get s h
      rw [← Nat.add_assoc, sp get s (by rw [hp get s h]; exact h), hp get s h]
    · intro get s h
      rw [← Nat.add_assoc, st get s (by rw [ht get s h]; exact h), ht get s h]
    · intro left s h
      rw [← Nat.add_assoc, stl left s (by rw [htl left s h]; exact h), htl left s h]
    · intro get s h
      rw [← Nat.add_assoc, se get s (by rw [he get s h]; exact h), he get s h]
    · intro left s h
      rw [← Nat.add_assoc, sel left s (by rw [hel left s h]; exact h), hel left s h]

theorem prim_fuel_add (f n : Nat) (get : Bool) (s : State) (r : Result)
    (hr : r ≠ Result.timeout) (h : prim f get s = r) : prim (n + f) get s = r := by
  rw [Nat.add_comm, (fuel_add f n).1 get s (by rw [h]; exact hr), h]

theorem term_fuel_add (f n : Nat) (get : Bool) (s : State) (r : Result)
    (hr : r ≠ Result.timeout) (h : term f get s = r) : term (n + f) get s = r := by
  rw [Nat.add_comm, (fuel_add f n).2.1 get s (by rw [h]; exact hr), h]

theorem termLoop_fuel_add (f n : Nat) (left : Rat) (s : State) (r : Result)
    (hr : r ≠ Result.timeout) (h : termLoop f left s = r) : termLoop (n + f) left s = r := by
  rw [Nat.add_comm, (fuel_add f n).2.2.1 left s (by rw [h]; exact hr), h]

theorem expr_fuel_add (f n : Nat) (get : Bool) (s : State) (r : Result)
    (hr : r ≠ Result.timeout) (h : expr f get s = r) : expr (n + f) get s = r := by
  rw [Nat.add_comm, (fuel_add f n).2.2.2.1 get s (by rw [h]; exact hr), h]

theorem exprLoop_fuel_add (f n : Nat) (left : Rat) (s : State) (r : Result)
    (hr : r ≠ Result.timeout) (h : exprLoop f left s = r) : exprLoop (n + f) left s = r := by
  rw [Nat.add_comm, (fuel_add f n).2.2.2.2 left s (by rw [h]; exact hr), h]

/-! ## The symbol table -/

theorem Table.find_write_self (t : Table) (x : String) (u v : Rat)
    (h : Table.find t x = some u) : Table.find (Table.write t x v) x = some v := by
  induction t with
  | nil => simp [Table.find] at h
  | cons p rest ih =>
    obtain ⟨k, w⟩ := p
    by_cases hk : k = x
    · simp [Table.write, Table.find, hk]
    · have h2 : Table.find rest x = some u := by simpa [Table.find, hk] using h
      simpa [Table.write, Table.find, hk] using ih h2

theorem Table.find_append_absent (t : Table) (x : String) (v : Rat)
    (h : Table.find t x = none) : Table.find (t ++ [(x, v)]) x = some v := by
  induction t with
  | nil => simp [Table.find]
  | cons p rest ih =>
    obtain ⟨k, w⟩ := p
    by_cases hk : k = x
    · simp [Table.find, hk] at h
    · have h2 : Table.find rest x = none := by simpa [Table.find, hk] using h
      simpa [Table.find, hk] using ih h2

theorem Table.index_of_find (t : Table) (x : String) (u : Rat)
    (h : Table.find t x = some u) : Table.index t x = t := by
  simp [Table.index, h]

theorem Table.find_index_self (t : Table) (x : String) :
    ∃ u, Table.find (Table.index t x) x = some u := by
  cases h : Table.find t x with
  | some u => exact ⟨u, by rw [Table.index_of_find t x u h, h]⟩
  | none => exact ⟨0, by simp only [Table.index, h]; exact Table.find_append_absent t x 0 h⟩

theorem Table.find_write_index (t : Table) (x : String) (v : Rat) :
    Table.find (Table.write (Table.index t x) x v) x = some v := by
  obtain ⟨u, hu⟩ := Table.find_index_self t x
  exact Table.find_write_self _ x u v hu

/-! ## Claims -/

/-- C1: on the statement `6 / 3 ;` followed by the end of the input, `expr(true)`
does not return the quotient `2`: `term` tests the divisor `3` read by
`prim(true)` and then calls `term(true)` for the value to divide by, which reads
past `;` and fails with `primary expected`. The same statement with `+`, `-` or
`*` returns the sum, difference or product and stops on `;`. -/
theorem expr_binary_statement (a b : Rat) (n : Nat) :
    expr (n + 4) true
        (mkState [Token.num a, Token.op Kind.plus, Token.num b, Token.op Kind.print]
          Token.eof [])
      = Result.ok (a + b) (mkState [] (Token.op Kind.print) []) ∧
    expr (n + 4) true
        (mkState [Token.num a, Token.op Kind.minus, Token.num b, Token.op Kind.print]
          Token.eof [])
      = Result.ok (a - b) (mkState [] (Token.op Kind.print) []) ∧
    expr (n + 5) true
        (mkState [Token.num a, Token.op Kind.mul, Token.num b, Token.op Kind.print]
          Token.eof [])
      = Result.ok (a * b) (mkState [] (Token.op Kind.print) []) ∧
    expr (n + 5) true
        (mkState [Token.num 6, Token.op Kind.div, Token.num 3, Token.op Kind.print]
          Token.eof [])
      = Result.fail "primary expected" (mkState [] Token.eof []) := by
  refine ⟨?_, ?_, ?_, ?_⟩ <;>
    simp [expr_succ, term_succ, prim_succ, termLoop_succ, exprLoop_succ, mkState,
      State.advance, State.get, State.kind, Token_stream.get, Token_stream.current,
      Token.num, Token.op, Token.eof, Result.bind, error]

/-- C2: multiplication binds tighter than addition. On the tokens
`a + b * c ;` (whatever follows them, and whatever the table and the current
token are) `expr(true)` returns `a + b * c` and stops with `;` as the current
token, the table being untouched; `2 + 3 * 4 ;` yields `14`. -/
theorem expr_mul_binds_tighter (a b c : Rat) (ct : Token) (t : Table) (rest : List Token)
    (n : Nat) :
    expr (n + 6) true
        (mkState ([Token.num a, Token.op Kind.plus, Token.num b, Token.op Kind.mul,
          Token.num c, Token.op Kind.print] ++ rest) ct t)
      = Result.ok (a + b * c) (mkState rest (Token.op Kind.print) t) ∧
    expr (n + 6) true
        (mkState [Token.num 2, Token.op Kind.plus, Token.num 3, Token.op Kind.mul,
          Token.num 4, Token.op Kind.print] Token.eof [])
      = Result.ok 14 (mkState [] (Token.op Kind.print) []) := by
  constructor
  · simp [expr_succ, term_succ, prim_succ, termLoop_succ, exprLoop_succ, mkState,
      State.advance, State.get, State.kind, Token_stream.get, Token_stream.current,
      Token.num, Token.op, Result.bind]
  · simp [expr_succ, term_succ, prim_succ, termLoop_succ, exprLoop_succ, mkState,
      State.advance, State.get, State.kind, Token_stream.get, Token_stream.current,
      Token.num, Token.op, Result.bind]
    norm_num

/-- C3: assignment persists across statements. On `x = v ; x + w ;` the first
`expr(true)` returns `v` and stops on `;` with `table[x] = v`; the next
`expr(true)`, run on the state the first one left, returns `v + w`, stops on the
second `;` and leaves the table as it was. -/
theorem expr_assignment_persists (x : String) (v w : Rat) (ct : Token) (t : Table)
    (rest : List Token) (n : Nat) :
    expr (n + 6) true
        (mkState ([Token.ident x, Token.op Kind.assign, Token.num v, Token.op Kind.print,
          Token.ident x, Token.op Kind.plus, Token.num w, Token.op Kind.print] ++ rest) ct t)
      = Result.ok v
          (mkState ([Token.ident x, Token.op Kind.plus, Token.num w, Token.op Kind.print]
            ++ rest) (Token.op Kind.print) (Table.write (Table.index t x) x v)) ∧
    Table.find (Table.write (Table.index t x) x v) x = some v ∧
    expr (n + 6) true
        (mkState ([Token.ident x, Token.op Kind.plus, Token.num w, Token.op Kind.print]
            ++ rest) (Token.op Kind.print) (Table.write (Table.index t x) x v))
      = Result.ok (v + w)
          (mkState rest (Token.op Kind.print) (Table.write (Table.index t x) x v)) := by
  have hfind := Table.find_write_index t x v
  refine ⟨?_, hfind, ?_⟩
  · simp [expr_succ, term_succ, prim_succ, termLoop_succ, exprLoop_succ, mkState,
      State.advance, State.get, State.kind, State.index, State.assign, Token_stream.get,
      Token_stream.current, Token.num, Token.op, Token.ident, Result.bind]
  · simp [expr_succ, term_succ, prim_succ, termLoop_succ, exprLoop_succ, mkState,
      State.advance, State.get, State.kind, State.index, State.assign, Token_stream.get,
      Token_stream.current, Token.num, Token.op, Token.ident, Result.bind,
      Table.index_of_find _ x v hfind, Table.read, hfind]

/-- C4: division by zero is reported. Whenever the loop of `term` is at a `/`
(with any accumulator `left`) and `prim(true)` returns exactly `0` for the
primary to its right, the loop, and with it a call of `term` that reached it
straight after its first primary, fails with `divide by 0`; the globals are
then as that `prim(true)` left them, the current token being the one after the
primary. -/
theorem term_divide_by_zero (fuel n : Nat) (get : Bool) (left : Rat) (s0 s s1 : State)
    (hleft : prim fuel get s0 = Result.ok left s)
    (hdiv : s.kind = Kind.div)
    (hzero : prim fuel true s = Result.ok 0 s1) :
    termLoop (n + (fuel + 1)) left s = Result.fail "divide by 0" s1 ∧
    term (n + (fuel + 2)) get s0 = Result.fail "divide by 0" s1 := by
  have hloop : termLoop (fuel + 1) left s = Result.fail "divide by 0" s1 := by
    rw [termLoop_succ]
    simp [hdiv, hzero, Result.bind, error]
  have hterm : term (fuel + 2) get s0 = Result.fail "divide by 0" s1 := by
    rw [term_succ, (fuel_add fuel 1).1 get s0 (by rw [hleft]; simp), hleft]
    simpa [Result.bind] using hloop
  exact ⟨termLoop_fuel_add _ n left s _ (by simp) hloop,
    term_fuel_add _ n get s0 _ (by simp) hterm⟩

/-- Instance of C4 on the statement `1 / 0 ;`. -/
theorem term_divide_by_zero_witness :
    termLoop 2 1 (mkState [Token.num 0, Token.op Kind.print] (Token.op Kind.div) [])
        = Result.fail "divide by 0" (mkState [] (Token.op Kind.print) []) ∧
    term 3 true
        (mkState [Token.num 1, Token.op Kind.div, Token.num 0, Token.op Kind.print]
          Token.eof [])
        = Result.fail "divide by 0" (mkState [] (Token.op Kind.print) []) :=
  term_divide_by_zero 1 0 true 1
    (mkState [Token.num 1, Token.op Kind.div, Token.num 0, Token.op Kind.print] Token.eof [])
    (mkState [Token.num 0, Token.op Kind.print] (Token.op Kind.div) [])
    (mkState [] (Token.op Kind.print) [])
    (by simp [prim_succ, mkState, State.advance, State.get, State.kind, Token_stream.get,
      Token_stream.current, Token.num, Token.op])
    (by simp [mkState, State.kind, Token_stream.current, Token.op])
    (by simp [prim_succ, mkState, State.advance, State.get, State.kind, Token_stream.get,
      Token_stream.current, Token.num, Token.op])

/-- C5: parentheses override precedence. On the tokens `( a + b ) * c ;`
`expr(true)` returns `(a + b) * c` and stops with `;` as the current token, the
table being untouched; `( 2 + 3 ) * 4 ;` yields `20`. -/
theorem expr_parentheses (a b c : Rat) (ct : Token) (t : Table) (rest : List Token)
    (n : Nat) :
    expr (n + 7) true
        (mkState ([Token.op Kind.lp, Token.num a, Token.op Kind.plus, Token.num b,
          Token.op Kind.rp, Token.op Kind.mul, Token.num c, Token.op Kind.print] ++ rest) ct t)
      = Result.ok ((a + b) * c) (mkState rest (Token.op Kind.print) t) ∧
    expr (n + 7) true
        (mkState [Token.op Kind.lp, Token.num 2, Token.op Kind.plus, Token.num 3,
          Token.op Kind.rp, Token.op Kind.mul, Token.num 4, Token.op Kind.print] Token.eof [])
      = Result.ok 20 (mkState [] (Token.op Kind.print) []) := by
  constructor
  · simp [expr_succ, term_succ, prim_succ, termLoop_succ, exprLoop_succ, mkState,
      State.advance, State.get, State.kind, Token_stream.get, Token_stream.current,
      Token.num, Token.op, Result.bind]
  · simp [expr_succ, term_succ, prim_succ, termLoop_succ, exprLoop_succ, mkState,
      State.advance, State.get, State.kind, Token_stream.get, Token_stream.current,
      Token.num, Token.op, Result.bind]
    norm_num

/-- C6: on `8 / 2 / 2 ;` the code's `term(true)` returns `4`, not the left fold
`(8 / 2) / 2 = 2`: after testing the divisor `2` read by `prim(true)` it divides
by the value of a further `term(true)`, whose advance skips the second `/`. On
`2 * 6 / 3 ;` it does not return `4` but fails with `primary expected`, the
further `term(true)` reading past `;`. -/
theorem term_chain_not_left_fold (n : Nat) :
    term (n + 4) true
        (mkState [Token.num 8, Token.op Kind.div, Token.num 2, Token.op Kind.div,
          Token.num 2, Token.op Kind.print] Token.eof [])
      = Result.ok 4 (mkState [] (Token.op Kind.print) []) ∧
    term (n + 6) true
        (mkState [Token.num 2, Token.op Kind.mul, Token.num 6, Token.op Kind.div,
          Token.num 3, Token.op Kind.print] Token.eof [])
      = Result.fail "primary expected" (mkState [] Token.eof []) := by
  constructor
  · simp [term_succ, prim_succ, termLoop_succ, mkState,
      State.advance, State.get, State.kind, Token_stream.get, Token_stream.current,
      Token.num, Token.op, Result.bind]
    norm_num
  · simp [term_succ, prim_succ, termLoop_succ, mkState,
      State.advance, State.get, State.kind, Token_stream.get, Token_stream.current,
      Token.num, Token.op, Token.eof, Result.bind, error]

/-! ## Chains of `+` and `-` -/

theorem State.get_mkState_cons (tok : Token) (toks : List Token) (ct : Token) (t : Table) :
    State.get (mkState (tok :: toks) ct t) = mkState toks tok t := rfl

theorem State.get_mkState_ct (toks : List Token) (c c' : Token) (t : Table) :
    State.get (mkState toks c t) = State.get (mkState toks c' t) := by
  cases toks <;> rfl

theorem State.kind_get_mkState (toks : List Token) (c : Token) (t : Table) :
    (State.get (mkState toks c t)).kind = nextKind toks := by
  cases toks <;> rfl

theorem nextKind_opTokens (ops : List (Kind × Rat)) (rest : List Token)
    (hops : ∀ p ∈ ops, p.1 = Kind.plus ∨ p.1 = Kind.minus)
    (hmul : nextKind rest ≠ Kind.mul) (hdiv : nextKind rest ≠ Kind.div) :
    nextKind (opTokens ops ++ rest) ≠ Kind.mul ∧ nextKind (opTokens ops ++ rest) ≠ Kind.div := by
  cases ops with
  | nil => exact ⟨hmul, hdiv⟩
  | cons p ops =>
    obtain ⟨k, v⟩ := p
    rcases hops (k, v) (List.mem_cons_self _ _) with h | h <;>
      simp only [] at h <;> subst h <;> simp [opTokens, nextKind, Token.op]

theorem term_single_number (f : Nat) (v : Rat) (toks : List Token) (c : Token) (t : Table)
    (hmul : nextKind toks ≠ Kind.mul) (hdiv : nextKind toks ≠ Kind.div) :
    term (f + 2) true (mkState (Token.num v :: toks) c t)
      = Result.ok v (State.get (mkState toks (Token.num v) t)) := by
  have hk := State.kind_get_mkState toks (Token.num v) t
  rw [term_succ, prim_succ]
  have h1 : State.advance true (mkState (Token.num v :: toks) c t)
      = mkState toks (Token.num v) t := rfl
  have h2 : (mkState toks (Token.num v) t).kind = Kind.number := rfl
  have h3 : (mkState toks (Token.num v) t).ts.current.number_value = v := rfl
  rw [h1]
  simp only [h2, h3, Result.bind]
  rw [termLoop_succ]
  split
  · rename_i h; rw [hk] at h; exact absurd h hmul
  · rename_i h; rw [hk] at h; exact absurd h hdiv
  · rfl

theorem exprLoop_chain (rest : List Token) (t : Table)
    (hplus : nextKind rest ≠ Kind.plus) (hminus : nextKind rest ≠ Kind.minus)
    (hmul : nextKind rest ≠ Kind.mul) (hdiv : nextKind rest ≠ Kind.div)
    (ops : List (Kind × Rat)) :
    ∀ (left : Rat) (c : Token) (f : Nat),
      (∀ p ∈ ops, p.1 = Kind.plus ∨ p.1 = Kind.minus) →
      exprLoop (f + ops.length + 2) left (State.get (mkState (opTokens ops ++ rest) c t))
        = Result.ok (foldAddSub left ops) (State.get (mkState rest Token.eof t)) := by
  induction ops with
  | nil =>
    intro left c f _
    have hk := State.kind_get_mkState rest c t
    show exprLoop (f + 1 + 1) left (State.get (mkState rest c t)) = _
    rw [exprLoop_succ, State.get_mkState_ct rest Token.eof c]
    split
    · rename_i h; rw [hk] at h; exact absurd h hplus
    · rename_i h; rw [hk] at h; exact absurd h hminus
    · rfl
  | cons p ops ih =>
    intro left c f hops
    obtain ⟨k, v⟩ := p
    have hops' : ∀ q ∈ ops, q.1 = Kind.plus ∨ q.1 = Kind.minus :=
      fun q hq => hops q (List.mem_cons_of_mem _ hq)
    obtain ⟨hm, hd⟩ := nextKind_opTokens ops rest hops' hmul hdiv
    have hstate : State.get (mkState (opTokens ((k, v) :: ops) ++ rest) c t)
        = mkState (Token.num v :: (opTokens ops ++ rest)) (Token.op k) t := rfl
    have hterm := term_single_number (f + ops.length) v (opTokens ops ++ rest) (Token.op k) t
      hm hd
    have hkind : (mkState (Token.num v :: (opTokens ops ++ rest)) (Token.op k) t).kind = k :=
      rfl
    show exprLoop (f + ops.length + 2 + 1) left _ = _
    rw [hstate, exprLoop_succ, hkind]
    rcases hops (k, v) (List.mem_cons_self _ _) with h | h <;> simp only [] at h <;> subst h
    · simp only [hterm, Result.bind]
      exact ih (left + v) (Token.num v) f hops'
    · simp only [hterm, Result.bind]
      exact ih (left - v) (Token.num v) f hops'

/-- C7, as stated, fails: in `1 * 2 ;` the one-operand chain `1` is followed by
`*`, which is neither `+` nor `-`, yet `expr(true)` returns `2` with `;` current
rather than the fold `1` with `*` current. -/
theorem expr_chain_followed_by_mul :
    nextKind [Token.op Kind.mul, Token.num 2, Token.op Kind.print] ≠ Kind.plus ∧
    nextKind [Token.op Kind.mul, Token.num 2, Token.op Kind.print] ≠ Kind.minus ∧
    expr 5 true
        (mkState (Token.num 1 :: opTokens [] ++
          [Token.op Kind.mul, Token.num 2, Token.op Kind.print]) Token.eof [])
      = Result.ok 2 (mkState [] (Token.op Kind.print) []) ∧
    expr 5 true
        (mkState (Token.num 1 :: opTokens [] ++
          [Token.op Kind.mul, Token.num 2, Token.op Kind.print]) Token.eof [])
      ≠ Result.ok (foldAddSub 1 [])
          (State.get (mkState [Token.op Kind.mul, Token.num 2, Token.op Kind.print]
            Token.eof [])) := by
  have h : expr 5 true
        (mkState (Token.num 1 :: opTokens [] ++
          [Token.op Kind.mul, Token.num 2, Token.op Kind.print]) Token.eof [])
      = Result.ok 2 (mkState [] (Token.op Kind.print) []) := by
    simp [expr_succ, term_succ, prim_succ, termLoop_succ, exprLoop_succ, mkState,
      State.advance, State.get, State.kind, Token_stream.get, Token_stream.current,
      Token.num, Token.op, Result.bind, opTokens]
  refine ⟨by simp [nextKind, Token.op], by simp [nextKind, Token.op], h, ?_⟩
  rw [h]
  simp [foldAddSub, mkState, State.get, Token_stream.get]

/-- C7, amended: `expr` is a left-associative chain of `+` and `-` over terms.
On `n1 op1 n2 ... nk` (each `op` a `+` or a `-`, each `ni` a number token)
followed by a token that is none of `+`, `-`, `*`, `/` (or by the end of the
input), `expr(true)` returns the left fold `((n1 op1 n2) op2 n3) ... nk`, stops
with that following token as the current one and leaves the table alone. -/
theorem expr_add_sub_chain (n1 : Rat) (ops : List (Kind × Rat)) (rest : List Token)
    (ct : Token) (t : Table) (n : Nat)
    (hops : ∀ p ∈ ops, p.1 = Kind.plus ∨ p.1 = Kind.minus)
    (hplus : nextKind rest ≠ Kind.plus) (hminus : nextKind rest ≠ Kind.minus)
    (hmul : nextKind rest ≠ Kind.mul) (hdiv : nextKind rest ≠ Kind.div) :
    expr (n + ops.length + 3) true (mkState (Token.num n1 :: opTokens ops ++ rest) ct t)
      = Result.ok (foldAddSub n1 ops) (State.get (mkState rest Token.eof t)) ∧
    (State.get (mkState rest Token.eof t)).kind = nextKind rest ∧
    (State.get (mkState rest Token.eof t)).table = t := by
  obtain ⟨hm, hd⟩ := nextKind_opTokens ops rest hops hmul hdiv
  refine ⟨?_, State.kind_get_mkState rest Token.eof t, rfl⟩
  show expr (n + ops.length + 2 + 1) true (mkState (Token.num n1 :: (opTokens ops ++ rest)) ct t)
    = _
  rw [expr_succ, term_single_number (n + ops.length) n1 (opTokens ops ++ rest) ct t hm hd]
  simp only [Result.bind]
  exact exprLoop_chain rest t hplus hminus hmul hdiv ops n1 (Token.num n1) n hops

/-- Instance of C7 (amended) on `7 - 2 - 1 ;`, which yields `(7 - 2) - 1 = 4`. -/
theorem expr_add_sub_chain_witness :
    expr 5 true
        (mkState (Token.num 7 :: opTokens [(Kind.minus, 2), (Kind.minus, 1)] ++
          [Token.op Kind.print]) Token.eof [])
      = Result.ok (foldAddSub 7 [(Kind.minus, 2), (Kind.minus, 1)])
          (State.get (mkState [Token.op Kind.print] Token.eof [])) ∧
    (State.get (mkState [Token.op Kind.print] Token.eof [])).kind
      = nextKind [Token.op Kind.print] ∧
    (State.get (mkState [Token.op Kind.print] Token.eof [])).table = [] :=
  expr_add_sub_chain 7 [(Kind.minus, 2), (Kind.minus, 1)] [Token.op Kind.print] Token.eof []
    0 (by simp) (by simp [nextKind, Token.op]) (by simp [nextKind, Token.op])
    (by simp [nextKind, Token.op]) (by simp [nextKind, Token.op])

/-! ## Primaries -/

theorem Result.bind_eq_fail {r : Result} {k : Rat → State → Result} {msg : String}
    {s : State} (h : r.bind k = Result.fail msg s) :
    r = Result.fail msg s ∨ ∃ v s1, r = Result.ok v s1 ∧ k v s1 = Result.fail msg s := by
  cases r with
  | ok v s1 => exact Or.inr ⟨v, s1, rfl, h⟩
  | fail m s1 => exact Or.inl h
  | timeout => simp [Result.bind] at h

theorem primary_expected_state (f : Nat) :
    (∀ get s s', prim f get s = Result.fail "primary expected" s' →
      s'.kind.startsPrimary = false) ∧
    (∀ get s s', term f get s = Result.fail "primary expected" s' →
      s'.kind.startsPrimary = false) ∧
    (∀ left s s', termLoop f left s = Result.fail "primary expected" s' →
      s'.kind.startsPrimary = false) ∧
    (∀ get s s', expr f get s = Result.fail "primary expected" s' →
      s'.kind.startsPrimary = false) ∧
    (∀ left s s', exprLoop f left s = Result.fail "primary expected" s' →
      s'.kind.startsPrimary = false) := by
  induction f with
  | zero =>
    refine ⟨?_, ?_, ?_, ?_, ?_⟩ <;> intro a s s' h
    · simp [prim] at h
    · simp [term] at h
    · simp [termLoop] at h
    · simp [expr] at h
    · simp [exprLoop] at h
  | succ n ih =>
    obtain ⟨ihp, iht, ihtl, ihe, ihel⟩ := ih
    have loopT : ∀ left s s', termLoop (n + 1) left s = Result.fail "primary expected" s' →
        s'.kind.startsPrimary = false := by
      intro left s s' h
      rw [termLoop_succ] at h
      split at h
      · rcases Result.bind_eq_fail h with h1 | ⟨v, s1, _, h1⟩
        · exact iht _ _ _ h1
        · exact ihtl _ _ _ h1
      · rcases Result.bind_eq_fail h with h1 | ⟨d, s1, _, h1⟩
        · exact ihp _ _ _ h1
        · split at h1
          · rcases Result.bind_eq_fail h1 with h2 | ⟨v, s2, _, h2⟩
            · exact iht _ _ _ h2
            · exact ihtl _ _ _ h2
          · simp [error] at h1
      · simp at h
    have loopE : ∀ left s s', exprLoop (n + 1) left s = Result.fail "primary expected" s' →
        s'.kind.startsPrimary = false := by
      intro left s s' h
      rw [exprLoop_succ] at h
      split at h
      · rcases Result.bind_eq_fail h with h1 | ⟨v, s1, _, h1⟩
        · exact iht _ _ _ h1
        · exact ihel _ _ _ h1
      · rcases Result.bind_eq_fail h with h1 | ⟨v, s1, _, h1⟩
        · exact iht _ _ _ h1
        · exact ihel _ _ _ h1
      · simp at h
    refine ⟨?_, ?_, loopT, ?_, loopE⟩
    · intro get s s' h
      rw [prim_succ] at h
      cases hk : (State.advance get s).kind <;> simp only [hk] at h
      · split at h
        · rcases Result.bind_eq_fail h with h1 | ⟨v, s1, _, h1⟩
          · exact ihe _ _ _ h1
          · simp at h1
        · simp at h
      · simp at h
      · simp only [error, Result.fail.injEq, true_and] at h
        rw [← h, hk]; rfl
      · simp only [error, Result.fail.injEq, true_and] at h
        rw [← h, hk]; rfl
      · rcases Result.bind_eq_fail h with h1 | ⟨v, s1, _, h1⟩
        · exact ihp _ _ _ h1
        · simp at h1
      · simp only [error, Result.fail.injEq, true_and] at h
        rw [← h, hk]; rfl
      · simp only [error, Result.fail.injEq, true_and] at h
        rw [← h, hk]; rfl
      · simp only [error, Result.fail.injEq, true_and] at h
        rw [← h, hk]; rfl
      · simp only [error, Result.fail.injEq, true_and] at h
        rw [← h, hk]; rfl
      · rcases Result.bind_eq_fail h with h1 | ⟨v, s1, _, h1⟩
        · exact ihe _ _ _ h1
        · split at h1
          · simp [error] at h1
          · simp at h1
      · simp only [error, Result.fail.injEq, true_and] at h
        rw [← h, hk]; rfl
    · intro get s s' h
      rw [term_succ] at h
      rcases Result.bind_eq_fail h with h1 | ⟨v, s1, _, h1⟩
      · exact ihp _ _ _ h1
      · exact ihtl _ _ _ h1
    · intro get s s' h
      rw [expr_succ] at h
      rcases Result.bind_eq_fail h with h1 | ⟨v, s1, _, h1⟩
      · exact iht _ _ _ h1
      · exact ihel _ _ _ h1

/-- C8: unary minus negates the following primary. When the token `prim`
inspects is `-`, its outcome is that of `prim(true)` with a returned value
negated: it returns `-u` when the inner call returns `u`, and it fails exactly
when the inner call fails, with the same error. In particular, with
`table[x] = v` (for instance `3`), `expr(true)` on `- x ;` returns `-v`, stops
on `;` and leaves the table unchanged. -/
theorem prim_unary_minus (fuel n : Nat) (get : Bool) (s : State) (x : String) (v : Rat)
    (ct : Token) (t : Table) (rest : List Token)
    (hminus : (State.advance get s).kind = Kind.minus)
    (hx : Table.find t x = some v) :
    (∀ u s1, prim fuel true (State.advance get s) = Result.ok u s1 →
      prim (fuel + 1) get s = Result.ok (-u) s1) ∧
    (∀ msg s1, prim (fuel + 1) get s = Result.fail msg s1 ↔
      prim fuel true (State.advance get s) = Result.fail msg s1) ∧
    expr (n + 5) true
        (mkState ([Token.op Kind.minus, Token.ident x, Token.op Kind.print] ++ rest) ct t)
      = Result.ok (-v) (mkState rest (Token.op Kind.print) t) := by
  have hp : prim (fuel + 1) get s
      = (prim fuel true (State.advance get s)).bind fun u s1 => Result.ok (-u) s1 := by
    rw [prim_succ]
    simp only [hminus]
  refine ⟨?_, ?_, ?_⟩
  · intro u s1 h
    rw [hp, h]
    rfl
  · intro msg s1
    rw [hp]
    cases prim fuel true (State.advance get s) <;> simp [Result.bind]
  · simp [expr_succ, term_succ, prim_succ, termLoop_succ, exprLoop_succ, mkState,
      State.advance, State.get, State.kind, State.index, Token_stream.get,
      Token_stream.current, Token.op, Token.ident, Result.bind,
      Table.index_of_find t x v hx, Table.read, hx]

/-- Instance of C8 on `- x ;` with `table[x] = 3`. -/
theorem prim_unary_minus_witness :
    (∀ u s1, prim 1 true
        (State.advance true
          (mkState [Token.op Kind.minus, Token.ident "x", Token.op Kind.print] Token.eof
            [("x", 3)])) = Result.ok u s1 →
      prim 2 true
        (mkState [Token.op Kind.minus, Token.ident "x", Token.op Kind.print] Token.eof
          [("x", 3)]) = Result.ok (-u) s1) ∧
    (∀ msg s1, prim 2 true
        (mkState [Token.op Kind.minus, Token.ident "x", Token.op Kind.print] Token.eof
          [("x", 3)]) = Result.fail msg s1 ↔
      prim 1 true
        (State.advance true
          (mkState [Token.op Kind.minus, Token.ident "x", Token.op Kind.print] Token.eof
            [("x", 3)])) = Result.fail msg s1) ∧
    expr 5 true
        (mkState ([Token.op Kind.minus, Token.ident "x", Token.op Kind.print] ++ []) Token.eof
          [("x", 3)])
      = Result.ok (-3) (mkState [] (Token.op Kind.print) [("x", 3)]) :=
  prim_unary_minus 1 0 true
    (mkState [Token.op Kind.minus, Token.ident "x", Token.op Kind.print] Token.eof [("x", 3)])
    "x" 3 Token.eof [("x", 3)] []
    (by simp [mkState, State.advance, State.get, State.kind, Token_stream.get,
      Token_stream.current, Token.op])
    (by simp [Table.find])

/-- C9: a missing close parenthesis is rejected. When the token `prim` inspects
is `(` and the inner `expr(true)` returns `e` leaving the globals `s1`, `prim`
fails with `')' expected` if and only if the current token of `s1` is not `)`,
and the failure leaves the globals at `s1`; otherwise `prim` advances past the
`)` and returns `e`. -/
theorem prim_close_paren (fuel : Nat) (get : Bool) (s s1 : State) (e : Rat)
    (hlp : (State.advance get s).kind = Kind.lp)
    (hexpr : expr fuel true (State.advance get s) = Result.ok e s1) :
    ((∃ s2, prim (fuel + 1) get s = Result.fail "')' expected" s2) ↔ s1.kind ≠ Kind.rp) ∧
    (s1.kind ≠ Kind.rp → prim (fuel + 1) get s = Result.fail "')' expected" s1) ∧
    (s1.kind = Kind.rp → prim (fuel + 1) get s = Result.ok e s1.get) := by
  have hp : prim (fuel + 1) get s
      = if s1.kind ≠ Kind.rp then error "')' expected" s1 else Result.ok e s1.get := by
    rw [prim_succ]
    simp only [hlp, hexpr, Result.bind]
  have hbad : s1.kind ≠ Kind.rp → prim (fuel + 1) get s = Result.fail "')' expected" s1 := by
    intro h
    rw [hp, if_pos h]
    rfl
  have hgood : s1.kind = Kind.rp → prim (fuel + 1) get s = Result.ok e s1.get := by
    intro h
    rw [hp, if_neg (not_not.mpr h)]
  refine ⟨⟨?_, fun h => ⟨s1, hbad h⟩⟩, hbad, hgood⟩
  rintro ⟨s2, h2⟩ hrp
  rw [hgood hrp] at h2
  cases h2

/-- Instance of C9 on `( 1 ;`, where the parenthesis is not closed. -/
theorem prim_close_paren_witness :
    ((∃ s2, prim 5 true
        (mkState [Token.op Kind.lp, Token.num 1, Token.op Kind.print] Token.eof [])
          = Result.fail "')' expected" s2) ↔
      (mkState [] (Token.op Kind.print) []).kind ≠ Kind.rp) ∧
    ((mkState [] (Token.op Kind.print) []).kind ≠ Kind.rp →
      prim 5 true (mkState [Token.op Kind.lp, Token.num 1, Token.op Kind.print] Token.eof [])
        = Result.fail "')' expected" (mkState [] (Token.op Kind.print) [])) ∧
    ((mkState [] (Token.op Kind.print) []).kind = Kind.rp →
      prim 5 true (mkState [Token.op Kind.lp, Token.num 1, Token.op Kind.print] Token.eof [])
        = Result.ok 1 (mkState [] (Token.op Kind.print) []).get) :=
  prim_close_paren 4 true
    (mkState [Token.op Kind.lp, Token.num 1, Token.op Kind.print] Token.eof [])
    (mkState [] (Token.op Kind.print) []) 1
    (by simp [mkState, State.advance, State.get, State.kind, Token_stream.get,
      Token_stream.current, Token.op])
    (by simp [expr_succ, term_succ, prim_succ, termLoop_succ, exprLoop_succ, mkState,
      State.advance, State.get, State.kind, Token_stream.get, Token_stream.current,
      Token.num, Token.op, Result.bind])

/-- C10, as stated, fails: on `- ;` the token `prim(true)` inspects is `-`, one
of the four kinds that start a primary, and yet the call fails with
`primary expected`, the error being raised by the nested `prim(true)` once it
has read `;`. -/
theorem prim_primary_expected_nested :
    (State.advance true
      (mkState [Token.op Kind.minus, Token.op Kind.print] Token.eof [])).kind = Kind.minus ∧
    prim 2 true (mkState [Token.op Kind.minus, Token.op Kind.print] Token.eof [])
      = Result.fail "primary expected" (mkState [] (Token.op Kind.print) []) := by
  constructor
  · simp [mkState, State.advance, State.get, State.kind, Token_stream.get,
      Token_stream.current, Token.op]
  · simp [prim_succ, mkState, State.advance, State.get, State.kind, Token_stream.get,
      Token_stream.current, Token.op, Result.bind, error]

/-- C10, amended: `prim` fails with `primary expected` having read no further
token, that is, with the globals as they were when it inspected the current
token after the optional advance, exactly when that token is not a number, a
name, `-` or `(`; the symbol table is then the one `prim` was called with. -/
theorem prim_primary_expected (fuel : Nat) (get : Bool) (s : State) :
    (prim (fuel + 1) get s = Result.fail "primary expected" (State.advance get s) ↔
      (State.advance get s).kind.startsPrimary = false) ∧
    (State.advance get s).table = s.table := by
  refine ⟨⟨fun h => (primary_expected_state (fuel + 1)).1 get s _ h, fun h => ?_⟩, ?_⟩
  · rw [prim_succ]
    cases hk : (State.advance get s).kind <;> rw [hk] at h <;>
      first
        | rfl
        | exact absurd h (by decide)
  · cases get <;> rfl

/-! ## Name lookup and the frame of the symbol table -/

theorem Table.find_append_other (t : Table) (x y : String) (v : Rat) (h : y ≠ x) :
    Table.find (t ++ [(x, v)]) y = Table.find t y := by
  induction t with
  | nil => simp [Table.find, Ne.symm h]
  | cons p rest ih =>
    obtain ⟨k, w⟩ := p
    by_cases hk : k = y
    · simp [Table.find, hk]
    · simpa [Table.find, hk] using ih

/-- C11: name lookup is look-up-or-create with default `0`. When the token
`prim` inspects is the name `x` and the token after it is not `=`, `prim` reads
that one token and no more. If `x` has no entry, `prim` returns `0` and the
table gains the entry `x ↦ 0`, the lookup of every other name being unchanged;
if `x` has the entry `u`, `prim` returns `u` and the table is unchanged. -/
theorem prim_name_lookup (fuel : Nat) (get : Bool) (s : State) (x : String)
    (hname : (State.advance get s).kind = Kind.name)
    (hx : (State.advance get s).ts.current.string_value = x)
    (hnext : (State.advance get s).get.kind ≠ Kind.assign) :
    (Table.find s.table x = none →
      prim (fuel + 1) get s
        = Result.ok 0 { ts := (State.advance get s).ts.get, table := s.table ++ [(x, 0)] } ∧
      Table.find (s.table ++ [(x, 0)]) x = some 0 ∧
      ∀ y, y ≠ x → Table.find (s.table ++ [(x, 0)]) y = Table.find s.table y) ∧
    (∀ u, Table.find s.table x = some u →
      prim (fuel + 1) get s
        = Result.ok u { ts := (State.advance get s).ts.get, table := s.table }) := by
  have htab : (State.advance get s).table = s.table := by cases get <;> rfl
  have hnext2 : ¬ (((State.advance get s).index x).get).kind = Kind.assign := hnext
  constructor
  · intro habs
    refine ⟨?_, Table.find_append_absent _ _ _ habs,
      fun y hy => Table.find_append_other _ _ _ _ hy⟩
    rw [prim_succ]
    simp only [hname, hx, if_neg hnext2]
    simp [State.index, State.get, Table.read, Table.index, htab, habs,
      Table.find_append_absent _ _ _ habs]
  · intro u hu
    rw [prim_succ]
    simp only [hname, hx, if_neg hnext2]
    simp [State.index, State.get, Table.read, Table.index, htab, hu]

/-- Instance of C11 on `y ;` with the table `x ↦ 3`, where `y` is absent. -/
theorem prim_name_lookup_witness :
    (Table.find (mkState [Token.ident "y", Token.op Kind.print] Token.eof [("x", 3)]).table "y"
        = none →
      prim 1 true (mkState [Token.ident "y", Token.op Kind.print] Token.eof [("x", 3)])
        = Result.ok 0
          { ts := (State.advance true
              (mkState [Token.ident "y", Token.op Kind.print] Token.eof [("x", 3)])).ts.get,
            table := (mkState [Token.ident "y", Token.op Kind.print] Token.eof
              [("x", 3)]).table ++ [("y", 0)] } ∧
      Table.find ((mkState [Token.ident "y", Token.op Kind.print] Token.eof
        [("x", 3)]).table ++ [("y", 0)]) "y" = some 0 ∧
      ∀ z, z ≠ "y" →
        Table.find ((mkState [Token.ident "y", Token.op Kind.print] Token.eof
          [("x", 3)]).table ++ [("y", 0)]) z
        = Table.find (mkState [Token.ident "y", Token.op Kind.print] Token.eof
          [("x", 3)]).table z) ∧
    (∀ u, Table.find (mkState [Token.ident "y", Token.op Kind.print] Token.eof
        [("x", 3)]).table "y" = some u →
      prim 1 true (mkState [Token.ident "y", Token.op Kind.print] Token.eof [("x", 3)])
        = Result.ok u
          { ts := (State.advance true
              (mkState [Token.ident "y", Token.op Kind.print] Token.eof [("x", 3)])).ts.get,
            table := (mkState [Token.ident "y", Token.op Kind.print] Token.eof
              [("x", 3)]).table }) :=
  prim_name_lookup 0 true (mkState [Token.ident "y", Token.op Kind.print] Token.eof [("x", 3)])
    "y"
    (by simp [mkState, State.advance, State.get, State.kind, Token_stream.get,
      Token_stream.current, Token.ident])
    (by simp [mkState, State.advance, State.get, Token_stream.get,
      Token_stream.current, Token.ident])
    (by simp [mkState, State.advance, State.get, State.kind, Token_stream.get,
      Token_stream.current, Token.op])

/-! ## Termination -/

theorem State.measure_get_le (s : State) : s.get.measure ≤ s.measure := by
  obtain ⟨⟨ip, ct⟩, t⟩ := s
  cases ip with
  | nil => simp [State.measure, State.get, Token_stream.get, State.kind, Token_stream.current,
      Token.eof]
  | cons tok rest =>
    simp only [State.measure, State.get, Token_stream.get, State.kind, Token_stream.current,
      List.length_cons]
    split <;> split <;> omega

theorem State.measure_get_lt (s : State) (h : s.kind ≠ Kind.end_) :
    s.get.measure < s.measure := by
  obtain ⟨⟨ip, ct⟩, t⟩ := s
  have h' : ¬ ct.kind = Kind.end_ := h
  cases ip with
  | nil => simp [State.measure, State.get, Token_stream.get, State.kind, Token_stream.current,
      Token.eof, h']
  | cons tok rest =>
    simp only [State.measure, State.get, Token_stream.get, State.kind, Token_stream.current,
      List.length_cons, if_neg h']
    split <;> omega

theorem State.measure_le_length (s : State) : s.measure ≤ s.ts.ip.length + 1 := by
  unfold State.measure
  split <;> omega

theorem prim_true_eq (f : Nat) (s : State) : prim f true s = prim f false s.get := by
  cases f with
  | zero => rw [prim, prim]
  | succ n => rw [prim_succ, prim_succ]; rfl

theorem term_true_eq (f : Nat) (s : State) : term f true s = term f false s.get := by
  cases f with
  | zero => rw [term, term]
  | succ n => rw [term_succ, term_succ, prim_true_eq]

theorem expr_true_eq (f : Nat) (s : State) : expr f true s = expr f false s.get := by
  cases f with
  | zero => rw [expr, expr]
  | succ n => rw [expr_succ, expr_succ, term_true_eq]

theorem Result.Within_mono {m m' : Nat} (h : m ≤ m') {r : Result} (hr : Result.Within m r) :
    Result.Within m' r := by
  cases r with
  | ok v s => exact Nat.le_trans hr h
  | fail msg s => trivial
  | timeout => exact hr

theorem Result.Within_bind {m m' : Nat} {r : Result} {k : Rat → State → Result}
    (hr : Result.Within m r)
    (hk : ∀ v s, s.measure ≤ m → Result.Within m' (k v s)) : Result.Within m' (r.bind k) := by
  cases r with
  | ok v s => exact hk v s hr
  | fail msg s => trivial
  | timeout => exact hr

theorem total_calls (M : Nat)
    (hA : ∀ s : State, s.measure < M →
      (∀ f, 3 * M ≤ f → Result.Within s.measure (prim f false s)) ∧
      (∀ f left, 3 * M ≤ f → Result.Within s.measure (termLoop f left s)) ∧
      (∀ f left, 3 * M ≤ f → Result.Within s.measure (exprLoop f left s))) :
    ∀ s : State, s.measure < M →
      (∀ f, 3 * M + 1 ≤ f → Result.Within s.measure (term f false s)) ∧
      (∀ f, 3 * M + 2 ≤ f → Result.Within s.measure (expr f false s)) := by
  intro s hs
  have hterm : ∀ f, 3 * M + 1 ≤ f → Result.Within s.measure (term f false s) := by
    intro f hf
    obtain ⟨g, rfl⟩ : ∃ g, f = g + 1 := ⟨f - 1, by omega⟩
    rw [term_succ]
    refine Result.Within_bind ((hA s hs).1 g (by omega)) (fun v s1 h1 => ?_)
    exact Result.Within_mono h1 ((hA s1 (by omega)).2.1 g v (by omega))
  refine ⟨hterm, fun f hf => ?_⟩
  obtain ⟨g, rfl⟩ : ∃ g, f = g + 1 := ⟨f - 1, by omega⟩
  rw [expr_succ]
  refine Result.Within_bind (hterm g (by omega)) (fun v s1 h1 => ?_)
  exact Result.Within_mono h1 ((hA s1 (by omega)).2.2 g v (by omega))

theorem total_below (M : Nat) :
    ∀ s : State, s.measure < M →
      (∀ f, 3 * M ≤ f → Result.Within s.measure (prim f false s)) ∧
      (∀ f left, 3 * M ≤ f → Result.Within s.measure (termLoop f left s)) ∧
      (∀ f left, 3 * M ≤ f → Result.Within s.measure (exprLoop f left s)) := by
  induction M with
  | zero => intro s hs; exact absurd hs (Nat.not_lt_zero _)
  | succ M ih =>
    have ihB := total_calls M ih
    intro s hs
    -- calls made with `get = true` from a state whose current token is not the end token
    have sub : ∀ s1 : State, s1.measure ≤ s.measure → s1.kind ≠ Kind.end_ →
        (∀ f, 3 * M ≤ f → Result.Within s.measure (prim f true s1)) ∧
        (∀ f, 3 * M + 1 ≤ f → Result.Within s.measure (term f true s1)) ∧
        (∀ f, 3 * M + 2 ≤ f → Result.Within s.measure (expr f true s1)) := by
      intro s1 h1 hk
      have hlt := State.measure_get_lt s1 hk
      have hM : s1.get.measure < M := by omega
      have hle : s1.get.measure ≤ s.measure := by omega
      obtain ⟨hp, _, _⟩ := ih s1.get hM
      obtain ⟨ht, he⟩ := ihB s1.get hM
      refine ⟨fun f hf => ?_, fun f hf => ?_, fun f hf => ?_⟩
      · rw [prim_true_eq]; exact Result.Within_mono hle (hp f hf)
      · rw [term_true_eq]; exact Result.Within_mono hle (ht f hf)
      · rw [expr_true_eq]; exact Result.Within_mono hle (he f hf)
    -- later iterations of the loops, entered in a state of smaller measure
    have loops : ∀ s1 : State, s1.measure < s.measure →
        (∀ f left, 3 * M ≤ f → Result.Within s.measure (termLoop f left s1)) ∧
        (∀ f left, 3 * M ≤ f → Result.Within s.measure (exprLoop f left s1)) := by
      intro s1 h1
      obtain ⟨_, htl, hel⟩ := ih s1 (by omega)
      exact ⟨fun f left hf => Result.Within_mono (Nat.le_of_lt h1) (htl f left hf),
        fun f left hf => Result.Within_mono (Nat.le_of_lt h1) (hel f left hf)⟩
    have hprim : ∀ f, 3 * (M + 1) ≤ f → Result.Within s.measure (prim f false s) := by
      intro f hf
      obtain ⟨g, rfl⟩ : ∃ g, f = g + 1 := ⟨f - 1, by omega⟩
      rw [prim_succ]
      have hadv : State.advance false s = s := rfl
      rw [hadv]
      cases hk : s.kind <;> simp only []
      · -- name
        have hne : s.kind ≠ Kind.end_ := by rw [hk]; decide
        have hlt : (s.index s.ts.current.string_value).get.measure < s.measure :=
          State.measure_get_lt s hne
        split
        · rename_i hassign
          have hk1 : (s.index s.ts.current.string_value).get.kind ≠ Kind.end_ := by
            rw [hassign]; decide
          have hlt1 := State.measure_get_lt _ hk1
          have hM : (s.index s.ts.current.string_value).get.get.measure < M := by omega
          rw [expr_true_eq]
          refine Result.Within_bind ((ihB _ hM).2 g (by omega)) (fun v s2 h2 => ?_)
          show s2.measure ≤ s.measure
          omega
        · exact Nat.le_of_lt hlt
      · exact State.measure_get_le s
      · trivial
      · trivial
      · have hne : s.kind ≠ Kind.end_ := by rw [hk]; decide
        exact Result.Within_bind ((sub s (Nat.le_refl _) hne).1 g (by omega))
          (fun v s1 h1 => h1)
      · trivial
      · trivial
      · trivial
      · trivial
      · have hne : s.kind ≠ Kind.end_ := by rw [hk]; decide
        refine Result.Within_bind ((sub s (Nat.le_refl _) hne).2.2 g (by omega))
          (fun v s1 h1 => ?_)
        split
        · trivial
        · exact Nat.le_trans (State.measure_get_le s1) h1
      · trivial
    have htl : ∀ f left, 3 * (M + 1) ≤ f → Result.Within s.measure (termLoop f left s) := by
      intro f left hf
      obtain ⟨g, rfl⟩ : ∃ g, f = g + 1 := ⟨f - 1, by omega⟩
      rw [termLoop_succ]
      split
      · rename_i hk
        have hne : s.kind ≠ Kind.end_ := by rw [hk]; decide
        have hlt := State.measure_get_lt s hne
        rw [term_true_eq]
        have hM : s.get.measure < M := by omega
        refine Result.Within_bind ((ihB _ hM).1 g (by omega)) (fun v s1 h1 => ?_)
        exact (loops s1 (by omega)).1 g _ (by omega)
      · rename_i hk
        have hne : s.kind ≠ Kind.end_ := by rw [hk]; decide
        have hlt := State.measure_get_lt s hne
        rw [prim_true_eq]
        have hM : s.get.measure < M := by omega
        refine Result.Within_bind ((ih _ hM).1 g (by omega)) (fun d s1 h1 => ?_)
        split
        · rw [term_true_eq]
          have hM1 : s1.get.measure < M := by
            have := State.measure_get_le s1
            omega
          refine Result.Within_bind ((ihB _ hM1).1 g (by omega)) (fun v s2 h2 => ?_)
          have := State.measure_get_le s1
          exact (loops s2 (by omega)).1 g _ (by omega)
        · trivial
      · exact Nat.le_refl _
    have hel : ∀ f left, 3 * (M + 1) ≤ f → Result.Within s.measure (exprLoop f left s) := by
      intro f left hf
      obtain ⟨g, rfl⟩ : ∃ g, f = g + 1 := ⟨f - 1, by omega⟩
      rw [exprLoop_succ]
      split
      · rename_i hk
        have hne : s.kind ≠ Kind.end_ := by rw [hk]; decide
        have hlt := State.measure_get_lt s hne
        rw [term_true_eq]
        have hM : s.get.measure < M := by omega
        refine Result.Within_bind ((ihB _ hM).1 g (by omega)) (fun v s1 h1 => ?_)
        exact (loops s1 (by omega)).2 g _ (by omega)
      · rename_i hk
        have hne : s.kind ≠ Kind.end_ := by rw [hk]; decide
        have hlt := State.measure_get_lt s hne
        rw [term_true_eq]
        have hM : s.get.measure < M := by omega
        refine Result.Within_bind ((ihB _ hM).1 g (by omega)) (fun v s1 h1 => ?_)
        exact (loops s1 (by omega)).2 g _ (by omega)
      · exact Nat.le_refl _
    exact ⟨hprim, htl, hel⟩

/-- C16: evaluation always terminates. On a stream that delivers a finite list
of tokens and then the end token for ever, with any table, any current token
and either value of the flag, `prim`, `term` and `expr` come to an outcome (a
value or an error): they do not run out of fuel once the fuel is at least three
times the number of tokens still to be read plus eight. -/
theorem evaluation_total (s : State) (b : Bool) (n : Nat) :
    prim (n + (3 * s.ts.ip.length + 8)) b s ≠ Result.timeout ∧
    term (n + (3 * s.ts.ip.length + 8)) b s ≠ Result.timeout ∧
    expr (n + (3 * s.ts.ip.length + 8)) b s ≠ Result.timeout := by
  have key : ∀ s1 : State, s1.measure < s.ts.ip.length + 2 →
      prim (n + (3 * s.ts.ip.length + 8)) false s1 ≠ Result.timeout ∧
      term (n + (3 * s.ts.ip.length + 8)) false s1 ≠ Result.timeout ∧
      expr (n + (3 * s.ts.ip.length + 8)) false s1 ≠ Result.timeout := by
    intro s1 h1
    have hA := total_below (s.ts.ip.length + 2)
    have hB := total_calls (s.ts.ip.length + 2) hA
    have hp := (hA s1 h1).1 (n + (3 * s.ts.ip.length + 8)) (by omega)
    have ht := (hB s1 h1).1 (n + (3 * s.ts.ip.length + 8)) (by omega)
    have he := (hB s1 h1).2 (n + (3 * s.ts.ip.length + 8)) (by omega)
    refine ⟨fun h => ?_, fun h => ?_, fun h => ?_⟩
    · rw [h] at hp; exact hp
    · rw [h] at ht; exact ht
    · rw [h] at he; exact he
  cases b
  · exact key s (by have := State.measure_le_length s; omega)
  · rw [prim_true_eq, term_true_eq, expr_true_eq]
    refine key s.get ?_
    have h1 := State.measure_get_le s
    have h2 := State.measure_le_length s
    omega

theorem Table.grown_mono {toks toks' : List Token} {t t' : Table}
    (h : ∀ tok ∈ toks, tok.kind = Kind.name → tok ∈ toks')
    (hg : Table.grown toks t t') : Table.grown toks' t t' := by
  intro y
  rcases hg y with h1 | ⟨h1, h2, tok, htok, hk, hv⟩
  · exact Or.inl h1
  · exact Or.inr ⟨h1, h2, tok, h tok htok hk, hk, hv⟩

theorem State.Reads_refl (s : State) : State.Reads s s :=
  ⟨[], rfl, fun _ => List.mem_cons_self _ _, fun _ => Or.inl rfl⟩

theorem State.Reads_get (s : State) : State.Reads s s.get := by
  obtain ⟨⟨ip, ct⟩, t⟩ := s
  cases ip with
  | nil =>
    refine ⟨[], rfl, fun h => ?_, fun _ => Or.inl rfl⟩
    simp [State.get, Token_stream.get, Token.eof] at h
  | cons tok rest =>
    exact ⟨[tok], rfl, fun _ => List.mem_cons_of_mem _ (List.mem_cons_self _ _),
      fun _ => Or.inl rfl⟩

theorem State.Reads_index (s : State) (hk : s.kind = Kind.name) :
    State.Reads s (s.index s.ts.current.string_value) := by
  refine ⟨[], rfl, fun _ => List.mem_cons_self _ _, fun y => ?_⟩
  show Table.find (Table.index s.table s.ts.current.string_value) y = Table.find s.table y ∨ _
  cases h : Table.find s.table s.ts.current.string_value with
  | some u => exact Or.inl (by rw [Table.index_of_find _ _ u h])
  | none =>
    have hi : Table.index s.table s.ts.current.string_value
        = s.table ++ [(s.ts.current.string_value, 0)] := by simp [Table.index, h]
    by_cases hy : y = s.ts.current.string_value
    · refine Or.inr ⟨by rw [hy]; exact h, ?_, s.ts.ct, List.mem_cons_self _ _, hk, hy.symm⟩
      show Table.find (Table.index s.table s.ts.current.string_value) y = some 0
      rw [hi, hy]
      exact Table.find_append_absent _ _ 0 h
    · refine Or.inl ?_
      rw [hi]
      exact Table.find_append_other _ _ y 0 hy

theorem State.Reads_trans {a b c : State} (h1 : State.Reads a b) (h2 : State.Reads b c) :
    State.Reads a c := by
  obtain ⟨r1, e1, c1, g1⟩ := h1
  obtain ⟨r2, e2, c2, g2⟩ := h2
  have hmem : ∀ tok ∈ b.ts.ct :: r2, tok.kind = Kind.name → tok ∈ a.ts.ct :: (r1 ++ r2) := by
    intro tok htok hk
    rcases List.mem_cons.mp htok with h | h
    · subst h
      rcases List.mem_cons.mp (c1 hk) with h' | h'
      · rw [h']; exact List.mem_cons_self _ _
      · exact List.mem_cons_of_mem _ (List.mem_append_left _ h')
    · exact List.mem_cons_of_mem _ (List.mem_append_right _ h)
  have hleft : ∀ tok ∈ a.ts.ct :: r1, tok.kind = Kind.name → tok ∈ a.ts.ct :: (r1 ++ r2) := by
    intro tok htok _
    rcases List.mem_cons.mp htok with h | h
    · rw [h]; exact List.mem_cons_self _ _
    · exact List.mem_cons_of_mem _ (List.mem_append_left _ h)
  refine ⟨r1 ++ r2, by rw [e1, e2, List.append_assoc], fun hk => hmem _ (c2 hk) hk, fun y => ?_⟩
  rcases g2 y with h | ⟨hb, hc, tok, htok, hk, hv⟩
  · rw [h]
    exact Table.grown_mono hleft g1 y
  · rcases g1 y with h | ⟨_, hb', _⟩
    · exact Or.inr ⟨by rw [← h]; exact hb, hc, tok, hmem tok htok hk, hk, hv⟩
    · rw [hb] at hb'
      cases hb'

theorem noAssign_get (s : State) (h : noAssign s.ts.ip) :
    noAssign s.get.ts.ip ∧ s.get.kind ≠ Kind.assign := by
  obtain ⟨⟨ip, ct⟩, t⟩ := s
  cases ip with
  | nil => exact ⟨h, by simp [State.get, Token_stream.get, State.kind, Token_stream.current,
      Token.eof]⟩
  | cons tok rest =>
    exact ⟨fun q hq => h q (List.mem_cons_of_mem _ hq), h tok (List.mem_cons_self _ _)⟩

theorem Result.Leaves_bind {P Q : State → Prop} {r : Result} {k : Rat → State → Result}
    (hr : Result.Leaves P r) (hPQ : ∀ s, P s → Q s)
    (hk : ∀ v s, P s → Result.Leaves Q (k v s)) : Result.Leaves Q (r.bind k) := by
  cases r with
  | ok v s => exact hk v s hr
  | fail msg s => exact hPQ s hr
  | timeout => trivial

theorem Result.Leaves_mono {P Q : State → Prop} (hPQ : ∀ s, P s → Q s) (r : Result)
    (hr : Result.Leaves P r) : Result.Leaves Q r := by
  cases r with
  | ok v s2 => exact hPQ s2 hr
  | fail msg s2 => exact hPQ s2 hr
  | timeout => trivial

theorem frame_no_assign (f : Nat) :
    (∀ get s, noAssign s.ts.ip → Result.Leaves
      (fun s' => noAssign s'.ts.ip ∧ State.Reads s s') (prim f get s)) ∧
    (∀ get s, noAssign s.ts.ip → Result.Leaves
      (fun s' => noAssign s'.ts.ip ∧ State.Reads s s') (term f get s)) ∧
    (∀ left s, noAssign s.ts.ip → Result.Leaves
      (fun s' => noAssign s'.ts.ip ∧ State.Reads s s') (termLoop f left s)) ∧
    (∀ get s, noAssign s.ts.ip → Result.Leaves
      (fun s' => noAssign s'.ts.ip ∧ State.Reads s s') (expr f get s)) ∧
    (∀ left s, noAssign s.ts.ip → Result.Leaves
      (fun s' => noAssign s'.ts.ip ∧ State.Reads s s') (exprLoop f left s)) := by
  induction f with
  | zero =>
    refine ⟨?_, ?_, ?_, ?_, ?_⟩ <;> intro a s _
    · rw [prim]; trivial
    · rw [term]; trivial
    · rw [termLoop]; trivial
    · rw [expr]; trivial
    · rw [exprLoop]; trivial
  | succ n ih =>
    obtain ⟨ihp, iht, ihtl, ihe, ihel⟩ := ih
    -- sequencing two calls: the second starts where the first stopped
    have seq : ∀ (s : State) (r : Result) (k : Rat → State → Result),
        Result.Leaves (fun s' => noAssign s'.ts.ip ∧ State.Reads s s') r →
        (∀ v s1, noAssign s1.ts.ip → Result.Leaves
          (fun s' => noAssign s'.ts.ip ∧ State.Reads s1 s') (k v s1)) →
        Result.Leaves (fun s' => noAssign s'.ts.ip ∧ State.Reads s s') (r.bind k) := by
      intro s r k hr hk
      refine Result.Leaves_bind hr (fun _ h => h) (fun v s1 h1 => ?_)
      exact Result.Leaves_mono (fun s2 h2 => ⟨h2.1, State.Reads_trans h1.2 h2.2⟩) _
        (hk v s1 h1.1)
    have adv : ∀ (get : Bool) (s : State), noAssign s.ts.ip →
        noAssign (State.advance get s).ts.ip ∧ State.Reads s (State.advance get s) := by
      intro get s h
      cases get
      · exact ⟨h, State.Reads_refl s⟩
      · exact ⟨(noAssign_get s h).1, State.Reads_get s⟩
    refine ⟨?_, ?_, ?_, ?_, ?_⟩
    · intro get s hs
      obtain ⟨ha, hR0⟩ := adv get s hs
      rw [prim_succ]
      refine Result.Leaves_mono
        (P := fun s' => noAssign s'.ts.ip ∧ State.Reads (State.advance get s) s')
        (fun s' h => ⟨h.1, State.Reads_trans hR0 h.2⟩) _ ?_
      clear hR0
      generalize State.advance get s = s0 at ha ⊢
      cases hk : s0.kind <;> simp only []
      · -- name
        have hg := noAssign_get (s0.index s0.ts.current.string_value) ha
        rw [if_neg hg.2]
        exact ⟨hg.1, State.Reads_trans (State.Reads_index s0 hk) (State.Reads_get _)⟩
      · exact ⟨(noAssign_get s0 ha).1, State.Reads_get s0⟩
      · exact ⟨ha, State.Reads_refl _⟩
      · exact ⟨ha, State.Reads_refl _⟩
      · exact seq s0 _ _ (ihp true s0 ha) (fun v s1 h1 => ⟨h1, State.Reads_refl _⟩)
      · exact ⟨ha, State.Reads_refl _⟩
      · exact ⟨ha, State.Reads_refl _⟩
      · exact ⟨ha, State.Reads_refl _⟩
      · exact ⟨ha, State.Reads_refl _⟩
      · refine seq s0 _ _ (ihe true s0 ha) (fun v s1 h1 => ?_)
        by_cases hrp : s1.kind ≠ Kind.rp
        · rw [if_pos hrp]
          exact ⟨h1, State.Reads_refl _⟩
        · rw [if_neg hrp]
          exact ⟨(noAssign_get s1 h1).1, State.Reads_get s1⟩
      · exact ⟨ha, State.Reads_refl _⟩
    · intro get s hs
      rw [term_succ]
      exact seq s _ _ (ihp get s hs) (fun v s1 h1 => ihtl v s1 h1)
    · intro left s hs
      rw [termLoop_succ]
      split
      · exact seq s _ _ (iht true s hs) (fun v s1 h1 => ihtl _ s1 h1)
      · refine seq s _ _ (ihp true s hs) (fun d s1 h1 => ?_)
        by_cases hd : d ≠ 0
        · rw [if_pos hd]
          exact seq s1 _ _ (iht true s1 h1) (fun v s2 h2 => ihtl _ s2 h2)
        · rw [if_neg hd]
          exact ⟨h1, State.Reads_refl _⟩
      · exact ⟨hs, State.Reads_refl _⟩
    · intro get s hs
      rw [expr_succ]
      exact seq s _ _ (iht get s hs) (fun v s1 h1 => ihel v s1 h1)
    · intro left s hs
      rw [exprLoop_succ]
      split
      · exact seq s _ _ (iht true s hs) (fun v s1 h1 => ihel _ s1 h1)
      · exact seq s _ _ (iht true s hs) (fun v s1 h1 => ihel _ s1 h1)
      · exact ⟨hs, State.Reads_refl _⟩

theorem State.Reads_after_get (s s' : State) (h : State.Reads s.get s') :
    ∃ read, s.ts.ip = read ++ s'.ts.ip ∧ Table.grown read s.table s'.table := by
  obtain ⟨⟨ip, ct⟩, t⟩ := s
  obtain ⟨r, e, _, g⟩ := h
  cases ip with
  | nil =>
    refine ⟨r, e, Table.grown_mono (fun tok htok hk => ?_) g⟩
    rcases List.mem_cons.mp htok with h1 | h1
    · rw [h1] at hk
      simp [State.get, Token_stream.get, Token.eof] at hk
    · exact h1
  | cons tok rest =>
    refine ⟨tok :: r, ?_, g⟩
    show tok :: rest = tok :: r ++ s'.ts.ip
    rw [List.cons_append]
    exact congrArg (List.cons tok) e

/-- C12, as stated, fails: the statement `y ;` contains no `=`, and yet
`expr(true)` run on it with an empty table returns `0` and leaves the table
with the new entry `y ↦ 0`, created by the lookup `table[y]`. -/
theorem expr_lookup_creates_entry :
    noAssign [Token.ident "y", Token.op Kind.print] ∧
    expr 4 true (mkState [Token.ident "y", Token.op Kind.print] Token.eof [])
      = Result.ok 0 (mkState [] (Token.op Kind.print) [("y", 0)]) ∧
    (mkState [] (Token.op Kind.print) [("y", 0)]).table
      ≠ (mkState [Token.ident "y", Token.op Kind.print] Token.eof []).table := by
  refine ⟨?_, ?_, ?_⟩
  · intro tok htok
    simp only [List.mem_cons, List.mem_singleton, List.not_mem_nil, or_false] at htok
    rcases htok with h | h <;> subst h <;> simp [Token.ident, Token.op]
  · simp [expr_succ, term_succ, prim_succ, termLoop_succ, exprLoop_succ, mkState,
      State.advance, State.get, State.kind, State.index, Token_stream.get,
      Token_stream.current, Token.op, Token.ident, Result.bind, Table.index, Table.find,
      Table.read]
  · simp [mkState]

/-- C12, amended: on input that contains no `=` token, whatever the initial
table and the fuel, `expr(true)` never changes an existing entry of the symbol
table, and the only entries it adds are entries of value `0` for names it has
read. Whether it returns a value or fails, the input splits into the tokens
`read` that the stream has delivered and the tokens still to be read; every
name that had an entry keeps its value; and a name that had none either still
has none, or has the value `0` and is the identifier of a name token of `read`.
With fuel of at least three times the number of tokens plus eight the call does
come to such an outcome. -/
theorem expr_no_assign_preserves_table (fuel n : Nat) (s : State)
    (hs : noAssign s.ts.ip) :
    (∀ v s', expr fuel true s = Result.ok v s' →
      ∃ read, s.ts.ip = read ++ s'.ts.ip ∧ Table.grown read s.table s'.table) ∧
    (∀ msg s', expr fuel true s = Result.fail msg s' →
      ∃ read, s.ts.ip = read ++ s'.ts.ip ∧ Table.grown read s.table s'.table) ∧
    expr (n + (3 * s.ts.ip.length + 8)) true s ≠ Result.timeout := by
  have h := (frame_no_assign fuel).2.2.2.1 false s.get (noAssign_get s hs).1
  rw [← expr_true_eq] at h
  refine ⟨?_, ?_, ?_⟩
  · intro v s' hr
    rw [hr] at h
    exact State.Reads_after_get s s' h.2
  · intro msg s' hr
    rw [hr] at h
    exact State.Reads_after_get s s' h.2
  · have hm : s.get.measure < s.ts.ip.length + 2 := by
      have h1 := State.measure_get_le s
      have h2 := State.measure_le_length s
      omega
    have he := (total_calls _ (total_below (s.ts.ip.length + 2)) s.get hm).2
      (n + (3 * s.ts.ip.length + 8)) (by omega)
    rw [expr_true_eq]
    intro hto
    rw [hto] at he
    exact he

/-- Instance of C12 (amended) on `x + y ;` with the table `x ↦ 3`. -/
theorem expr_no_assign_preserves_table_witness :
    (∀ v s', expr 4 true
        (mkState [Token.ident "x", Token.op Kind.plus, Token.ident "y", Token.op Kind.print]
          Token.eof [("x", 3)]) = Result.ok v s' →
      ∃ read, (mkState [Token.ident "x", Token.op Kind.plus, Token.ident "y",
          Token.op Kind.print] Token.eof [("x", 3)]).ts.ip = read ++ s'.ts.ip ∧
        Table.grown read (mkState [Token.ident "x", Token.op Kind.plus, Token.ident "y",
          Token.op Kind.print] Token.eof [("x", 3)]).table s'.table) ∧
    (∀ msg s', expr 4 true
        (mkState [Token.ident "x", Token.op Kind.plus, Token.ident "y", Token.op Kind.print]
          Token.eof [("x", 3)]) = Result.fail msg s' →
      ∃ read, (mkState [Token.ident "x", Token.op Kind.plus, Token.ident "y",
          Token.op Kind.print] Token.eof [("x", 3)]).ts.ip = read ++ s'.ts.ip ∧
        Table.grown read (mkState [Token.ident "x", Token.op Kind.plus, Token.ident "y",
          Token.op Kind.print] Token.eof [("x", 3)]).table s'.table) ∧
    expr (0 + (3 * (mkState [Token.ident "x", Token.op Kind.plus, Token.ident "y",
        Token.op Kind.print] Token.eof [("x", 3)]).ts.ip.length + 8)) true
      (mkState [Token.ident "x", Token.op Kind.plus, Token.ident "y", Token.op Kind.print]
        Token.eof [("x", 3)]) ≠ Result.timeout :=
  expr_no_assign_preserves_table 4 0
    (mkState [Token.ident "x", Token.op Kind.plus, Token.ident "y", Token.op Kind.print]
      Token.eof [("x", 3)])
    (by
      intro tok htok
      simp only [mkState, List.mem_cons, List.mem_singleton, List.not_mem_nil, or_false]
        at htok
      rcases htok with h | h | h | h <;> subst h <;> simp [Token.ident, Token.op])

/-! ## Ownership of the input source -/

theorem Token_stream_res.released_close (o : Token_stream_res) :
    o.close.released = o.released ++ (if o.owns then [o.ip] else []) := by
  unfold Token_stream_res.close
  cases o.owns <;> simp

theorem Token_stream_res.destroy_set_input (o : Token_stream_res) (x : Source) :
    (o.set_input x).destroy = o.destroy ++ owned [x] := by
  cases x <;>
    simp [Token_stream_res.set_input, Token_stream_res.destroy,
      Token_stream_res.released_close, owned]

theorem Token_stream_res.destroy_foldl (calls : List Source) :
    ∀ o : Token_stream_res,
      (calls.foldl Token_stream_res.set_input o).destroy = o.destroy ++ owned calls := by
  induction calls with
  | nil => intro o; simp [owned]
  | cons x rest ih =>
    intro o
    rw [List.foldl_cons, ih, Token_stream_res.destroy_set_input, List.append_assoc]
    cases x <;> simp [owned]

theorem mem_owned (l : List Source) (p : Nat) : p ∈ owned l → Source.ptr p ∈ l := by
  induction l with
  | nil => simp [owned]
  | cons x rest ih =>
    cases x with
    | ref s => intro h; exact List.mem_cons_of_mem _ (ih h)
    | ptr q =>
      intro h
      rcases List.mem_cons.mp h with h | h
      · subst h; exact List.mem_cons_self _ _
      · exact List.mem_cons_of_mem _ (ih h)

theorem owned_mem (l : List Source) (p : Nat) : Source.ptr p ∈ l → p ∈ owned l := by
  induction l with
  | nil => simp
  | cons x rest ih =>
    intro h
    rcases List.mem_cons.mp h with h1 | h2
    · subst h1; exact List.mem_cons_self _ _
    · have hmem := ih h2
      cases x with
      | ref s => exact hmem
      | ptr q => exact List.mem_cons_of_mem _ hmem

theorem owned_nodup (l : List Source) (h : (l.map Source.id).Nodup) : (owned l).Nodup := by
  induction l with
  | nil => simp [owned]
  | cons x rest ih =>
    rw [List.map_cons, List.nodup_cons] at h
    cases x with
    | ref s => exact ih h.2
    | ptr q =>
      refine List.nodup_cons.mpr ⟨fun hq => h.1 ?_, ih h.2⟩
      exact List.mem_map.mpr ⟨Source.ptr q, mem_owned rest q hq, rfl⟩

theorem borrowed_not_owned (l : List Source) (h : (l.map Source.id).Nodup) (s : Nat)
    (hs : Source.ref s ∈ l) : s ∉ owned l := by
  induction l with
  | nil => simp at hs
  | cons x rest ih =>
    rw [List.map_cons, List.nodup_cons] at h
    rcases List.mem_cons.mp hs with hx | hr
    · subst hx
      intro hmem
      exact h.1 (List.mem_map.mpr ⟨Source.ptr s, mem_owned rest s hmem, rfl⟩)
    · cases x with
      | ref r => exact ih h.2 hr
      | ptr q =>
        intro hmem
        rcases List.mem_cons.mp hmem with hq | hq
        · subst hq
          exact h.1 (List.mem_map.mpr ⟨Source.ref s, hr, rfl⟩)
        · exact ih h.2 hr hq

/-- C13: `Token_stream` releases exactly the sources it owns. `close()`
releases the current source exactly when `owns` is set; constructing from, or
re-targeting to, a reference clears `owns`, and a pointer sets it. Hence over
the construction from `a`, any sequence `calls` of `set_input` calls and the
destruction, the released sources are those handed over by pointer, in order;
and when no source is handed over twice, no borrowed source is released and
every owned source is released exactly once. -/
theorem token_stream_releases_owned (a : Source) (calls : List Source) (o : Token_stream_res)
    (hnodup : ((a :: calls).map Source.id).Nodup) :
    o.close.released = o.released ++ (if o.owns then [o.ip] else []) ∧
    (∀ s, (Token_stream_res.construct (Source.ref s)).owns = false ∧
      (o.set_input (Source.ref s)).owns = false) ∧
    (∀ p, (Token_stream_res.construct (Source.ptr p)).owns = true ∧
      (o.set_input (Source.ptr p)).owns = true) ∧
    lifetime a calls = owned (a :: calls) ∧
    (∀ s, Source.ref s ∈ a :: calls → s ∉ lifetime a calls) ∧
    (∀ p, Source.ptr p ∈ a :: calls → (lifetime a calls).count p = 1) := by
  have hlife : lifetime a calls = owned (a :: calls) := by
    unfold lifetime
    rw [Token_stream_res.destroy_foldl]
    cases a <;> simp [Token_stream_res.construct, Token_stream_res.destroy,
      Token_stream_res.close, owned]
  refine ⟨Token_stream_res.released_close o, fun s => ⟨rfl, rfl⟩, fun p => ⟨rfl, rfl⟩, hlife,
    ?_, ?_⟩
  · intro s hs
    rw [hlife]
    exact borrowed_not_owned _ hnodup s hs
  · intro p hp
    rw [hlife]
    exact List.count_eq_one_of_mem (owned_nodup _ hnodup) (owned_mem _ p hp)

/-- Instance of C13: a stream borrowing source `1`, re-targeted to the owned
source `2`, to the borrowed source `3` and to the owned source `4`. -/
theorem token_stream_releases_owned_witness :
    (Token_stream_res.construct (Source.ptr 7)).close.released
      = (Token_stream_res.construct (Source.ptr 7)).released ++
        (if (Token_stream_res.construct (Source.ptr 7)).owns
          then [(Token_stream_res.construct (Source.ptr 7)).ip] else []) ∧
    (∀ s, (Token_stream_res.construct (Source.ref s)).owns = false ∧
      ((Token_stream_res.construct (Source.ptr 7)).set_input (Source.ref s)).owns = false) ∧
    (∀ p, (Token_stream_res.construct (Source.ptr p)).owns = true ∧
      ((Token_stream_res.construct (Source.ptr 7)).set_input (Source.ptr p)).owns = true) ∧
    lifetime (Source.ref 1) [Source.ptr 2, Source.ref 3, Source.ptr 4]
      = owned [Source.ref 1, Source.ptr 2, Source.ref 3, Source.ptr 4] ∧
    (∀ s, Source.ref s ∈ [Source.ref 1, Source.ptr 2, Source.ref 3, Source.ptr 4] →
      s ∉ lifetime (Source.ref 1) [Source.ptr 2, Source.ref 3, Source.ptr 4]) ∧
    (∀ p, Source.ptr p ∈ [Source.ref 1, Source.ptr 2, Source.ref 3, Source.ptr 4] →
      (lifetime (Source.ref 1) [Source.ptr 2, Source.ref 3, Source.ptr 4]).count p = 1) :=
  token_stream_releases_owned (Source.ref 1) [Source.ptr 2, Source.ref 3, Source.ptr 4]
    (Token_stream_res.construct (Source.ptr 7)) (by decide)

/-- C14: on `1 / 2 * 0 ;` the code's `term(true)` returns a value without any
error although it carries out a division by zero. At the `/` it tests the
divisor `2` read by `prim(true)`, and then divides by the value of a further
`term(true)`, which skips the `*` and returns `0`: the one step `left /= ...` it
executes has the divisor `0`. -/
theorem term_divides_by_zero (n : Nat) :
    prim (n + 1) true
        (mkState [Token.num 2, Token.op Kind.mul, Token.num 0, Token.op Kind.print]
          (Token.op Kind.div) [])
      = Result.ok 2 (mkState [Token.num 0, Token.op Kind.print] (Token.op Kind.mul) []) ∧
    term (n + 2) true (mkState [Token.num 0, Token.op Kind.print] (Token.op Kind.mul) [])
      = Result.ok 0 (mkState [] (Token.op Kind.print) []) ∧
    term (n + 4) true
        (mkState [Token.num 1, Token.op Kind.div, Token.num 2, Token.op Kind.mul,
          Token.num 0, Token.op Kind.print] Token.eof [])
      = Result.ok (1 / 0) (mkState [] (Token.op Kind.print) []) ∧
    termDivisors (n + 4) true
        (mkState [Token.num 1, Token.op Kind.div, Token.num 2, Token.op Kind.mul,
          Token.num 0, Token.op Kind.print] Token.eof [])
      = [0] := by
  refine ⟨?_, ?_, ?_, ?_⟩
  · simp [prim_succ, mkState, State.advance, State.get, State.kind, Token_stream.get,
      Token_stream.current, Token.num, Token.op]
  · simp [term_succ, prim_succ, termLoop_succ, mkState, State.advance, State.get, State.kind,
      Token_stream.get, Token_stream.current, Token.num, Token.op, Result.bind]
  · simp [term_succ, prim_succ, termLoop_succ, mkState, State.advance, State.get, State.kind,
      Token_stream.get, Token_stream.current, Token.num, Token.op, Result.bind]
  · simp [termDivisors, termLoopDivisors, term_succ, prim_succ, termLoop_succ, mkState,
      State.advance, State.get, State.kind, Token_stream.get, Token_stream.current,
      Token.num, Token.op, Result.bind]

/-! ## Multiplication-only chains -/

theorem prodLeft_mul (a : Rat) (vs : List Rat) :
    ∀ b, prodLeft (a * b) vs = a * prodLeft b vs := by
  induction vs with
  | nil => intro b; rfl
  | cons v vs ih =>
    intro b
    show prodLeft (a * b * v) vs = a * prodLeft (b * v) vs
    rw [mul_assoc, ih]

theorem prodRight_eq_prodLeft (vs : List Rat) : ∀ n1, prodRight n1 vs = prodLeft n1 vs := by
  induction vs with
  | nil => intro n1; rfl
  | cons v vs ih =>
    intro n1
    show n1 * prodRight v vs = prodLeft (n1 * v) vs
    rw [ih, prodLeft_mul]

theorem prim_number (f : Nat) (v : Rat) (toks : List Token) (c : Token) (t : Table) :
    prim (f + 1) true (mkState (Token.num v :: toks) c t)
      = Result.ok v (State.get (mkState toks (Token.num v) t)) := by
  rw [prim_succ]
  rfl

theorem termLoop_stop (f : Nat) (left : Rat) (s : State) (hmul : s.kind ≠ Kind.mul)
    (hdiv : s.kind ≠ Kind.div) : termLoop (f + 1) left s = Result.ok left s := by
  rw [termLoop_succ]
  split
  · rename_i h; exact absurd h hmul
  · rename_i h; exact absurd h hdiv
  · rfl

theorem term_spec_loop_stop (f : Nat) (left : Rat) (s : State) (hmul : s.kind ≠ Kind.mul)
    (hdiv : s.kind ≠ Kind.div) : term_spec_loop (f + 1) left s = Result.ok left s := by
  rw [term_spec_loop]
  split
  · rename_i h; exact absurd h hmul
  · rename_i h; exact absurd h hdiv
  · rfl

theorem term_mul_chain (rest : List Token) (t : Table)
    (hmul : nextKind rest ≠ Kind.mul) (hdiv : nextKind rest ≠ Kind.div) (ns : List Rat) :
    ∀ (n1 : Rat) (c : Token) (f : Nat),
      term (f + 2 * ns.length + 2) true (mkState (Token.num n1 :: mulChain ns ++ rest) c t)
        = Result.ok (prodRight n1 ns) (State.get (mkState rest Token.eof t)) := by
  induction ns with
  | nil =>
    intro n1 c f
    have h := term_single_number f n1 rest c t hmul hdiv
    rw [State.get_mkState_ct rest (Token.num n1) Token.eof] at h
    exact h
  | cons v vs ih =>
    intro n1 c f
    have hend : (State.get (mkState rest Token.eof t)).kind = nextKind rest :=
      State.kind_get_mkState rest Token.eof t
    show term (f + 2 * vs.length + 2 + 1 + 1) true
      (mkState (Token.num n1 :: Token.op Kind.mul :: Token.num v :: (mulChain vs ++ rest)) c t)
        = _
    rw [term_succ, prim_number]
    simp only [Result.bind]
    rw [termLoop_succ]
    have hk : (State.get (mkState (Token.op Kind.mul :: Token.num v :: (mulChain vs ++ rest))
        (Token.num n1) t)).kind = Kind.mul := rfl
    have hs : State.get (mkState (Token.op Kind.mul :: Token.num v :: (mulChain vs ++ rest))
        (Token.num n1) t) = mkState (Token.num v :: (mulChain vs ++ rest)) (Token.op Kind.mul) t :=
      rfl
    have hrec : term (f + 2 * vs.length + 2) true
        (mkState (Token.num v :: (mulChain vs ++ rest)) (Token.op Kind.mul) t)
          = Result.ok (prodRight v vs) (State.get (mkState rest Token.eof t)) :=
      ih v (Token.op Kind.mul) f
    simp only [hk]
    rw [hs, hrec]
    simp only [Result.bind]
    exact termLoop_stop _ _ _ (by rw [hend]; exact hmul) (by rw [hend]; exact hdiv)

theorem term_spec_loop_chain (rest : List Token) (t : Table)
    (hmul : nextKind rest ≠ Kind.mul) (hdiv : nextKind rest ≠ Kind.div) (ns : List Rat) :
    ∀ (left : Rat) (c : Token) (f : Nat),
      term_spec_loop (f + ns.length + 1) left (State.get (mkState (mulChain ns ++ rest) c t))
        = Result.ok (prodLeft left ns) (State.get (mkState rest Token.eof t)) := by
  induction ns with
  | nil =>
    intro left c f
    have hend : (State.get (mkState rest c t)).kind = nextKind rest :=
      State.kind_get_mkState rest c t
    show term_spec_loop (f + 0 + 1) left (State.get (mkState rest c t)) = _
    rw [State.get_mkState_ct rest Token.eof c]
    exact term_spec_loop_stop _ _ _ (by rw [hend]; exact hmul) (by rw [hend]; exact hdiv)
  | cons v vs ih =>
    intro left c f
    have hs : State.get (mkState (mulChain (v :: vs) ++ rest) c t)
        = mkState (Token.num v :: (mulChain vs ++ rest)) (Token.op Kind.mul) t := rfl
    have hk : (mkState (Token.num v :: (mulChain vs ++ rest)) (Token.op Kind.mul) t).kind
        = Kind.mul := rfl
    show term_spec_loop (f + vs.length + 1 + 1) left _ = _
    rw [hs, term_spec_loop]
    simp only [hk]
    rw [show f + vs.length + 1 = (f + vs.length) + 1 from rfl, prim_number]
    simp only [Result.bind]
    exact ih (left * v) (Token.num v) f

/-- C15: on multiplication-only chains the recursive `term` of the source
agrees with the iterative `term` of the specification. On `n1 * n2 * ... * nk`
followed by a token other than `*` and `/` (or by the end of the input), the
source's `term(true)` returns `n1 * (n2 * (... * nk))`, the specification's
returns `((n1 * n2) * ...) * nk`, the two values are equal, and both calls stop
in the same state, with the following token as the current one. -/
theorem term_mul_chain_agrees (n1 : Rat) (ns : List Rat) (rest : List Token) (ct : Token)
    (t : Table) (n : Nat)
    (hmul : nextKind rest ≠ Kind.mul) (hdiv : nextKind rest ≠ Kind.div) :
    term (n + 2 * ns.length + 2) true (mkState (Token.num n1 :: mulChain ns ++ rest) ct t)
      = Result.ok (prodRight n1 ns) (State.get (mkState rest Token.eof t)) ∧
    term_spec (n + ns.length + 2) true (mkState (Token.num n1 :: mulChain ns ++ rest) ct t)
      = Result.ok (prodLeft n1 ns) (State.get (mkState rest Token.eof t)) ∧
    prodRight n1 ns = prodLeft n1 ns ∧
    (State.get (mkState rest Token.eof t)).kind = nextKind rest := by
  refine ⟨term_mul_chain rest t hmul hdiv ns n1 ct n, ?_, prodRight_eq_prodLeft ns n1,
    State.kind_get_mkState rest Token.eof t⟩
  show term_spec (n + ns.length + 1 + 1) true
    (mkState (Token.num n1 :: (mulChain ns ++ rest)) ct t) = _
  rw [term_spec, show n + ns.length + 1 = (n + ns.length) + 1 from rfl, prim_number]
  simp only [Result.bind]
  exact term_spec_loop_chain rest t hmul hdiv ns n1 (Token.num n1) n

/-- Instance of C15 on `2 * 3 * 4 ;`. -/
theorem term_mul_chain_agrees_witness :
    term (0 + 2 * [(3 : Rat), 4].length + 2) true
        (mkState (Token.num 2 :: mulChain [3, 4] ++ [Token.op Kind.print]) Token.eof [])
      = Result.ok (prodRight 2 [3, 4]) (State.get (mkState [Token.op Kind.print] Token.eof []))
      ∧
    term_spec (0 + [(3 : Rat), 4].length + 2) true
        (mkState (Token.num 2 :: mulChain [3, 4] ++ [Token.op Kind.print]) Token.eof [])
      = Result.ok (prodLeft 2 [3, 4]) (State.get (mkState [Token.op Kind.print] Token.eof []))
      ∧
    prodRight 2 [3, 4] = prodLeft 2 [3, 4] ∧
    (State.get (mkState [Token.op Kind.print] Token.eof [])).kind
      = nextKind [Token.op Kind.print] :=
  term_mul_chain_agrees 2 [3, 4] [Token.op Kind.print] Token.eof [] 0
    (by simp [nextKind, Token.op]) (by simp [nextKind, Token.op])

end DeskCalculator
